import Mathlib

/-!
Verification of the jhsiao-tkutil library's core algorithms, shallowly
embedded in Lean.  Python strings are modelled as lists of code points
(`List Nat`), Python's `sorted` as `List.insertionSort` with the
tuple order, and `bisect.bisect_left` / `bisect.bisect_right` as the
binary search from the CPython `bisect` module.  Side effects on tk
widgets (label colors, scrolling, tcl command registration) are either
modelled as explicit state or dropped when the claim is about a return
value only.
-/

namespace TkUtil

/-! ## Common: Python strings, tuple order, sorted, bisect -/

/-- A Python string: a list of Unicode code points. -/
abbrev Str := List Nat

/-- `sys.maxunicode`. -/
def maxunicode : Nat := 1114111

/-- Python's tuple comparison, restricted to pairs: lexicographic. -/
def tupLe {α β : Type _} [LinearOrder α] [LinearOrder β] (a b : α × β) : Prop :=
  a.1 < b.1 ∨ (a.1 = b.1 ∧ a.2 ≤ b.2)

instance {α β : Type _} [LinearOrder α] [LinearOrder β] :
    DecidableRel (@tupLe α β _ _) := fun a b => by
  unfold tupLe; infer_instance

instance {α β : Type _} [LinearOrder α] [LinearOrder β] :
    IsTotal (α × β) tupLe where
  total a b := by
    rcases lt_trichotomy a.1 b.1 with h | h | h
    · exact Or.inl (Or.inl h)
    · rcases le_total a.2 b.2 with h2 | h2
      · exact Or.inl (Or.inr ⟨h, h2⟩)
      · exact Or.inr (Or.inr ⟨h.symm, h2⟩)
    · exact Or.inr (Or.inl h)

instance {α β : Type _} [LinearOrder α] [LinearOrder β] :
    IsTrans (α × β) tupLe where
  trans a b c hab hbc := by
    rcases hab with h | ⟨h, h2⟩
    · rcases hbc with h' | ⟨h', h2'⟩
      · exact Or.inl (h.trans h')
      · exact Or.inl (h' ▸ h)
    · rcases hbc with h' | ⟨h', h2'⟩
      · exact Or.inl (h ▸ h')
      · exact Or.inr ⟨h.trans h', h2.trans h2'⟩

instance {α β : Type _} [LinearOrder α] [LinearOrder β] :
    IsAntisymm (α × β) tupLe where
  antisymm a b hab hba := by
    rcases hab with h | ⟨h, h2⟩
    · rcases hba with h' | ⟨h', h2'⟩
      · exact absurd (h.trans h') (lt_irrefl _)
      · exact absurd h (h' ▸ lt_irrefl _)
    · rcases hba with h' | ⟨h', h2'⟩
      · exact absurd h' (h ▸ lt_irrefl _)
      · exact Prod.ext h (le_antisymm h2 h2')

/-- Python's `sorted` on a list of pairs (ascending tuple order, stable). -/
def pySorted {α β : Type _} [LinearOrder α] [LinearOrder β]
    (l : List (α × β)) : List (α × β) :=
  List.insertionSort tupLe l

/-- CPython `bisect.bisect_left(a, x, lo, hi)`. -/
def bisectLeft {α : Type _} [LinearOrder α] (a : List α) (x : α) (lo hi : Nat) : Nat :=
  if h : lo < hi then
    let mid := (lo + hi) / 2
    if a.getD mid x < x then bisectLeft a x (mid + 1) hi
    else bisectLeft a x lo mid
  else lo
termination_by hi - lo
decreasing_by
  · simp_wf; omega
  · simp_wf; omega

/-- CPython `bisect.bisect_right(a, x, lo, hi)`. -/
def bisectRight {α : Type _} [LinearOrder α] (a : List α) (x : α) (lo hi : Nat) : Nat :=
  if h : lo < hi then
    let mid := (lo + hi) / 2
    if x < a.getD mid x then bisectRight a x lo mid
    else bisectRight a x (mid + 1) hi
  else lo
termination_by hi - lo
decreasing_by
  · simp_wf; omega
  · simp_wf; omega

end TkUtil

namespace TkUtil.ItemSelector

/-!
## `jhsiao/tkutil/itemselector.py`

`str.lower` is modelled as a per-code-point map `lowerfn : Nat → Nat`,
applied pointwise (`lower`).  The label/grid side effects of
`_prep_choices` and `select` are dropped; the model computes exactly the
data that determines `select`'s return value: the five parallel lists
`lowers, raws, labels(omitted), Linds, Rinds` and `_longest`.
-/

/-- Lowercase a string, one code point at a time. -/
def lower (lowerfn : Nat → Nat) (s : Str) : Str := s.map lowerfn

/-- `tmp = sorted((choice.lower(), choice) for choice in choices)` -/
def prepTmp (lowerfn : Nat → Nat) (cs : List Str) : List (Str × Str) :=
  pySorted (cs.map fun c => (lower lowerfn c, c))

/-- `lowers[:] = (x[_LOWER] for x in tmp)` -/
def lowersOf (lowerfn : Nat → Nat) (cs : List Str) : List Str :=
  (prepTmp lowerfn cs).map Prod.fst

/-- `tmp = sorted((x[_RAW], i) for i, x in enumerate(tmp))` -/
def prepTmp2 (lowerfn : Nat → Nat) (cs : List Str) : List (Str × Nat) :=
  pySorted ((((prepTmp lowerfn cs).map Prod.snd).enum).map fun p => (p.2, p.1))

/-- `raws[:] = (x[0] for x in tmp)` -/
def rawsOf (lowerfn : Nat → Nat) (cs : List Str) : List Str :=
  (prepTmp2 lowerfn cs).map Prod.fst

/-- `Linds[:] = (x[1] for x in tmp)` -/
def lindsOf (lowerfn : Nat → Nat) (cs : List Str) : List Nat :=
  (prepTmp2 lowerfn cs).map Prod.snd

/-- The raw texts in `(choice.lower(), choice)` order (`x[_RAW] for x in
tmp` before the second sort). -/
def rawsAllOf (lowerfn : Nat → Nat) (cs : List Str) : List Str :=
  (prepTmp lowerfn cs).map Prod.snd

/-- `Rinds[:] = Linds; for raw, lo in enumerate(Linds): Rinds[lo] = raw` -/
def mkRinds (L : List Nat) : List Nat :=
  L.enum.foldl (fun acc p => acc.set p.2 p.1) L

/-- The `Rinds` list of `_prep_choices`. -/
def rindsOf (lowerfn : Nat → Nat) (cs : List Str) : List Nat :=
  mkRinds (lindsOf lowerfn cs)

/-- `self._longest = max((len(_) for _ in raws), default=0)` -/
def longestOf (lowerfn : Nat → Nat) (cs : List Str) : Nat :=
  ((rawsOf lowerfn cs).map List.length).foldr max 0

/-- `ItemSelector._next_prefix` (`self._longest` passed explicitly).
`chr(ord(s[-1]) + 1)` raises `ValueError` exactly when the last code
point is `sys.maxunicode`. -/
def nextPrefix (longest : Nat) (s : Str) : Str :=
  if h : s = [] then List.replicate (longest + 1) maxunicode
  else if s.getLast h + 1 ≤ maxunicode then s.dropLast ++ [s.getLast h + 1]
  else s ++ List.replicate (1 + longest - s.length) (s.getLast h)

/-- `ItemSelector.select(val, exact)`: the returned list (label
recoloring and `snap` are display-only side effects). -/
def select (lowerfn : Nat → Nat) (cs : List Str) (val : Str) (exact : Bool) : List Str :=
  let lows := lowersOf lowerfn cs
  let raws := rawsOf lowerfn cs
  let Linds := lindsOf lowerfn cs
  let Rinds := rindsOf lowerfn cs
  let nitems := raws.length
  if nitems = 0 then []
  else if exact = true ∨ lower lowerfn val ≠ val then
    let stop := if exact then bisectRight raws val 0 nitems
      else bisectLeft raws (nextPrefix (longestOf lowerfn cs) val) 0 nitems
    let start := bisectLeft raws val 0 stop
    let inds := pySorted ((List.range' start (stop - start)).map fun i => (Linds.getD i 0, i))
    inds.map fun p => raws.getD p.2 []
  else
    let stop := bisectLeft lows (nextPrefix (longestOf lowerfn cs) val) 0 lows.length
    let start := bisectLeft lows val 0 stop
    (List.range' start (stop - start)).map fun i => raws.getD (Rinds.getD i 0) []

/-- A concrete per-code-point lowercase map (ASCII letters), used to
instantiate `lowerfn` on concrete inputs. -/
def asciiLower (c : Nat) : Nat := if 65 ≤ c ∧ c ≤ 90 then c + 32 else c

/-- Specification-side description of the prefix search: the choices
whose (lowercased, when the query is its own lowercase; raw otherwise)
text starts with `val`, listed in ascending order of the pair
`(choice.lower(), choice)`. -/
def specSelect (lowerfn : Nat → Nat) (cs : List Str) (val : Str) : List Str :=
  ((pySorted (cs.map fun c => (lower lowerfn c, c))).filter fun p =>
    if lower lowerfn val = val then decide (val <+: p.1) else decide (val <+: p.2)).map
    Prod.snd

end TkUtil.ItemSelector

namespace TkUtil.Bindings

/-!
## `jhsiao/tkutil/bindings/bindings.py` and `scopes.py`

A Python function is known to `Wrapper` only through `id(func)`,
`func.__name__` and its argument names, bundled as `PyFunc`.
-/

/-- The identity of a wrapped Python function. -/
structure PyFunc where
  fid : Nat
  fname : String
  argnames : List String

/-- `self.name = str(id(func)) + func.__name__` -/
def wrapperName (f : PyFunc) : String := toString f.fid ++ f.fname

/-- The `Event.subs` table of `scopes.py`, substitution codes only. -/
def eventSubs : List (String × String) :=
  [("above", "%a"), ("borderwidth", "%B"), ("button", "%b"), ("char", "%A"),
   ("count", "%c"), ("data", "%d"), ("delta", "%D"), ("detail", "%d"),
   ("focus", "%f"), ("height", "%h"), ("keycode", "%k"), ("keysym", "%K"),
   ("keysym_num", "%N"), ("mode", "%m"), ("override", "%o"), ("place", "%p"),
   ("root", "%R"), ("rootx", "%X"), ("rooty", "%Y"), ("sendevent", "%E"),
   ("serial", "%#"), ("state", "%s"), ("subwindow", "%S"), ("time", "%t"),
   ("type", "%T"), ("tp", "%T"), ("widget", "%W"), ("width", "%w"),
   ("x", "%x"), ("y", "%y")]

/-- The substitution-code half of `Scope.__getitem__`: an override whose
code is `None` falls back to the class table; a name in neither yields
`None` (so that `' '.join` raises `TypeError`). -/
def scopeSub (ov : List (String × Option String)) (k : String) : Option String :=
  match ov.lookup k with
  | some (some s) => some s
  | some none => eventSubs.lookup k
  | none => eventSubs.lookup k

/-- `Wrapper.__str__`: the tcl binding script, or `None` when joining the
items raises (an argument name missing from the scope). -/
def wrapperScript (f : PyFunc) (ov : List (String × Option String)) (dobreak : Bool) :
    Option String :=
  match f.argnames.mapM (scopeSub ov) with
  | none => none
  | some codes =>
    if dobreak then
      some ("if \x7b\"[" ++ String.intercalate " " (wrapperName f :: codes) ++
        "]\" == \"break\"\x7d break\n")
    else
      some (String.intercalate " " (wrapperName f :: codes) ++ "\n")

/-- One converted argument: `try: arg = c(arg) except: pass-through`. -/
def convertArg {V : Type _} (c : String → Option V) (a : String) : String ⊕ V :=
  match c a with
  | some v => Sum.inr v
  | none => Sum.inl a

/-- `Wrapper.__call__`.  A converter is `String → Option V` (`none` =
the converter raised); the wrapped function may itself raise
(`Except E R`).  The result is `Except.error` only for the explicit
`ValueError` on an argument-count mismatch. -/
def wrapperCall {V E R : Type _} (convs : List (String → Option V))
    (f : List (String ⊕ V) → Except E R) (args : List String) :
    Except String (Option R) :=
  if args.length ≠ convs.length then
    Except.error "Mismatch arguments and converters"
  else
    let nargs := (convs.zip args).foldl
      (fun acc p => acc ++ [convertArg p.1 p.2]) ([] : List (String ⊕ V))
    match f nargs with
    | Except.ok r => Except.ok (some r)
    | Except.error _ => Except.ok none

/-- All arguments converted, with per-argument exception fallback. -/
def convertAll {V : Type _} (convs : List (String → Option V)) (args : List String) :
    List (String ⊕ V) :=
  (convs.zip args).map fun p => convertArg p.1 p.2

/-- `Wrapper.bind`: `converters` is the wrapper's current list, `cmds`
the tcl interpreter's registered command names.  Returns the new
converter list, the new command set, and whether `createcommand` ran;
raises (`Except.error`) when the wrapper was already bound. -/
def wrapperBind {Conv : Type _} (scopeconv : String → Conv) (argnames : List String)
    (converters : List Conv) (name : String) (cmds : List String) :
    Except String (List Conv × List String × Bool) :=
  if converters.length ≠ 0 then Except.error "Wrapper should only be bound once"
  else if name ∈ cmds then Except.ok (argnames.map scopeconv, cmds, false)
  else Except.ok (argnames.map scopeconv, name :: cmds, true)

/-- Claim C8 as stated: on a fresh wrapper, `bind` registers exactly when
the command is absent, and any second `bind` raises. -/
def c8Claim : Prop :=
  ∀ (scopeconv : String → Unit) (argnames : List String) (name : String)
    (cmds : List String) (cv' : List Unit) (cmds' : List String) (reg : Bool),
    wrapperBind scopeconv argnames [] name cmds = Except.ok (cv', cmds', reg) →
    ((reg = true ↔ name ∉ cmds) ∧
      ∀ r, wrapperBind scopeconv argnames cv' name cmds' ≠ Except.ok r)

/-- `_EvState.bits` of `scopes.py`. -/
def evStateBits : List (String × Nat) :=
  [("Shift", 1 <<< 0), ("Caps_Lock", 1 <<< 1), ("Control", 1 <<< 2),
   ("Mod1", 1 <<< 3), ("Mod2", 1 <<< 4), ("Mod3", 1 <<< 5), ("Mod4", 1 <<< 6),
   ("Mod5", 1 <<< 7), ("B1", 1 <<< 8), ("B2", 1 <<< 9), ("B3", 1 <<< 10),
   ("B4", 1 <<< 11), ("B5", 1 <<< 12), ("Alt", 1 <<< 17)]

/-- `_EvState.__getattr__`: `self.bits[name] & self.state`, with a
`KeyError` turned into `AttributeError` (`none`). -/
def evStateGetattr (state : Nat) (name : String) : Option Nat :=
  (evStateBits.lookup name).map fun b => b &&& state

end TkUtil.Bindings

namespace TkUtil.Scrollframe

/-!
## `jhsiao/tkutil/scrollframe.py`

`Scrollframe._show` reads: the two show flags, each scrollbar's
`get()` value (a pair of doubles compared against `(0.0, 1.0)`,
modelled as exact rationals), each scrollbar's root-window rectangle and
the event's root coordinates (integers).  It updates only the two
scrollbars' `lifted` flags (`lift`/`lower` set them).
-/

/-- The mutable state `_show` acts on. -/
structure ScrollState where
  xlifted : Bool
  ylifted : Bool
deriving DecidableEq

/-- Everything `_show` reads. -/
structure ShowEnv where
  showx : Bool
  showy : Bool
  xget : Rat × Rat
  yget : Rat × Rat
  xrect : Int × Int × Int × Int
  yrect : Int × Int × Int × Int
  px : Int
  py : Int

/-- `(x < ex < x+w) and (y < ey < y+h)`. -/
def inRect (r : Int × Int × Int × Int) (ex ey : Int) : Bool :=
  decide (r.1 < ex ∧ ex < r.1 + r.2.2.1 ∧ r.2.1 < ey ∧ ey < r.2.1 + r.2.2.2)

/-- `Scrollframe._show`. -/
def showStep (env : ShowEnv) (s : ScrollState) : ScrollState :=
  if env.showx = true ∧ env.xget ≠ ((0 : Rat), (1 : Rat)) ∧ inRect env.xrect env.px env.py = true then
    { s with xlifted := true }
  else if env.showy = true ∧ env.yget ≠ ((0 : Rat), (1 : Rat)) ∧ inRect env.yrect env.px env.py = true then
    { s with ylifted := true }
  else
    { xlifted := false, ylifted := false }

/-- Claim C6 as stated: after any completed `_show`, a scrollbar whose
`get()` is `(0.0, 1.0)` or whose show flag is off is not lifted. -/
def c6Claim : Prop :=
  ∀ (env : ShowEnv) (s : ScrollState),
    ((env.xget = ((0 : Rat), (1 : Rat)) ∨ env.showx = false) →
      (showStep env s).xlifted = false) ∧
    ((env.yget = ((0 : Rat), (1 : Rat)) ∨ env.showy = false) →
      (showStep env s).ylifted = false)

end TkUtil.Scrollframe

namespace TkUtil.EmacsText

/-!
## `jhsiao/tkutil/emacsentry.py`

Text positions are linear character indices (`Nat`); the `sel` tag is a
single optional half-open range, as maintained by `update_selection`.
-/

/-- The text-widget state `update_selection` acts on. -/
structure TextState where
  insert : Nat
  mark : Option Nat
  sel : Option (Nat × Nat)
deriving DecidableEq

/-- The set of positions the `sel` tag covers. -/
def covered (s : TextState) (i : Nat) : Bool :=
  match s.sel with
  | some r => decide (r.1 ≤ i ∧ i < r.2)
  | none => false

/-- `update_selection`: no-op without the mark, else remove any previous
`sel` range and tag from `insert` to the mark in text order (tk's
`tag_add` with an empty range adds nothing). -/
def updateSelection (s : TextState) : TextState :=
  match s.mark with
  | none => s
  | some m =>
    let rng := if s.insert < m then (s.insert, m) else (m, s.insert)
    let s1 : TextState := { s with sel := none }
    { s1 with sel := if rng.1 < rng.2 then some rng else none }

end TkUtil.EmacsText

namespace TkUtil.Bindtags

/-!
## `jhsiao/tkutil/util.py` `subclass` and `jhsiao/tkutil/__init__.py`
`add_bindtags`

Both act on the widget's bindtags tuple; `wname` stands for
`str(widget)` (the instance tag).  `list.index` raising `ValueError`
(or `position` staying unbound, a `NameError`) is `none`.
-/

/-- `util.subclass`, as a function on the bindtags list. -/
def subclassTags (tags : List String) (wname tag : String)
    (after before : Option String) : Option (List String) :=
  if before.getD "" ≠ "" then
    if before.getD "" ∈ tags then
      some (tags.insertIdx (tags.indexOf (before.getD "")) tag)
    else none
  else
    -- `after` is defaulted to `str(widget)` but never used:
    -- `idx = tags.index(str(widget)) + 1` regardless.
    if wname ∈ tags then
      some (tags.insertIdx (tags.indexOf wname + 1) tag)
    else none

/-- `add_bindtags`, as a function on the bindtags tuple. -/
def addBindtags (curtags : List String) (wname : String) (tags : List String)
    (before after : Option String) : Option (List String) :=
  if before.getD "" ≠ "" then
    if before.getD "" ∈ curtags then
      let position := curtags.indexOf (before.getD "")
      some (curtags.take position ++ tags ++ curtags.drop position)
    else none
  else if after.getD wname ≠ "" then
    if after.getD wname ∈ curtags then
      let position := curtags.indexOf (after.getD wname) + 1
      some (curtags.take position ++ tags ++ curtags.drop position)
    else none
  else none

end TkUtil.Bindtags

/-! # Theorems -/

namespace TkUtil

/-! ## List helpers -/

theorem insertIdx_eq_take_cons {α : Type _} :
    ∀ (n : Nat) (l : List α) (a : α), n ≤ l.length →
      l.insertIdx n a = l.take n ++ a :: l.drop n := by
  intro n
  induction n with
  | zero => intro l a _; simp
  | succ n ih =>
    intro l a h
    cases l with
    | nil => simp at h
    | cons b t =>
      rw [List.insertIdx_succ_cons, ih t a (by simpa using h)]
      simp

theorem indexOf_append_first {α : Type _} [DecidableEq α] :
    ∀ (pre : List α) (a : α) (post : List α), a ∉ pre →
      (pre ++ a :: post).indexOf a = pre.length := by
  intro pre
  induction pre with
  | nil => intro a post _; simp [List.indexOf_cons]
  | cons b t ih =>
    intro a post h
    have hba : b ≠ a := fun hh => h (hh ▸ List.mem_cons_self b t)
    have hbeq : (b == a) = false := beq_eq_false_iff_ne.mpr hba
    rw [List.cons_append, List.indexOf_cons, hbeq, cond_false]
    rw [ih a post (fun hh => h (List.mem_cons_of_mem b hh))]
    simp

theorem exists_first_split {α : Type _} [DecidableEq α] {a : α} :
    ∀ {l : List α}, a ∈ l → ∃ pre post, l = pre ++ a :: post ∧ a ∉ pre := by
  intro l
  induction l with
  | nil => intro h; simp at h
  | cons b t ih =>
    intro h
    by_cases hb : b = a
    · exact ⟨[], t, by simp [hb], by simp⟩
    · have ht : a ∈ t := by
        rcases List.mem_cons.mp h with h1 | h1
        · exact absurd h1.symm hb
        · exact h1
      obtain ⟨pre, post, h1, h2⟩ := ih ht
      exact ⟨b :: pre, post, by simp [h1], by
        intro hc
        rcases List.mem_cons.mp hc with h3 | h3
        · exact hb h3.symm
        · exact h2 h3⟩

end TkUtil

namespace TkUtil.Bindtags

theorem subclass_insert_core (tags : List String) (wname tag : String)
    (pre post : List String) (hsplit : tags = pre ++ wname :: post) (hnm : wname ∉ pre) :
    subclassTags tags wname tag none none = some (pre ++ wname :: tag :: post) := by
  subst hsplit
  have hmem : wname ∈ pre ++ wname :: post := by simp
  have hidx : (pre ++ wname :: post).indexOf wname = pre.length :=
    TkUtil.indexOf_append_first pre wname post hnm
  unfold subclassTags
  simp only [Option.getD_none, ne_eq, not_true_eq_false, if_false, hmem, if_true,
    reduceIte, hidx]
  rw [TkUtil.insertIdx_eq_take_cons (pre.length + 1) _ tag (by simp)]
  have hre : pre ++ wname :: post = (pre ++ [wname]) ++ post := by simp
  rw [hre]
  rw [show pre.length + 1 = (pre ++ [wname]).length by simp]
  rw [List.take_left, List.drop_left]
  simp

/-- Claim C4: with no `after`/`before`, both `subclass` and
`add_bindtags` insert the new tag(s) immediately after the first
occurrence of the instance tag `str(widget)`, keeping every
pre-existing tag in its original relative order. -/
theorem C4_insert_after_instance_tag (tags : List String) (wname tag : String)
    (newtags : List String) (hw : wname ∈ tags) (hne : wname ≠ "") :
    ∃ pre post : List String,
      tags = pre ++ wname :: post ∧ wname ∉ pre ∧
      subclassTags tags wname tag none none = some (pre ++ wname :: tag :: post) ∧
      addBindtags tags wname newtags none none =
        some (pre ++ wname :: (newtags ++ post)) := by
  obtain ⟨pre, post, hsplit, hnm⟩ := TkUtil.exists_first_split hw
  refine ⟨pre, post, hsplit, hnm, subclass_insert_core tags wname tag pre post hsplit hnm, ?_⟩
  subst hsplit
  have hmem : wname ∈ pre ++ wname :: post := by simp
  have hidx : (pre ++ wname :: post).indexOf wname = pre.length :=
    TkUtil.indexOf_append_first pre wname post hnm
  unfold addBindtags
  simp only [Option.getD_none, ne_eq, not_true_eq_false, if_false, hne, hmem, if_true,
    reduceIte, hidx, not_false_eq_true]
  have hre : pre ++ wname :: post = (pre ++ [wname]) ++ post := by simp
  rw [hre]
  rw [show pre.length + 1 = (pre ++ [wname]).length by simp]
  rw [List.take_left, List.drop_left]
  simp

/-- Witness for C4 at a concrete bindtags list. -/
theorem C4_insert_after_instance_tag_witness :
    (".w" ∈ [".w", "Text", ".", "all"]) ∧ (".w" ≠ "") ∧
    (∃ pre post : List String,
      [".w", "Text", ".", "all"] = pre ++ ".w" :: post ∧ ".w" ∉ pre ∧
      subclassTags [".w", "Text", ".", "all"] ".w" "MyText" none none =
        some (pre ++ ".w" :: "MyText" :: post) ∧
      addBindtags [".w", "Text", ".", "all"] ".w" ["A", "B"] none none =
        some (pre ++ ".w" :: (["A", "B"] ++ post))) :=
  ⟨by decide, by decide,
    C4_insert_after_instance_tag [".w", "Text", ".", "all"] ".w" "MyText" ["A", "B"]
      (by decide) (by decide)⟩

/-- Claim C10: `subclass(widget, tag, after=t)` (no `before`) ignores
`t` entirely: the insertion point is always directly after the instance
tag. -/
theorem C10_after_ignored (tags : List String) (wname tag t : String)
    (hw : wname ∈ tags) (ht : t ∈ tags) :
    subclassTags tags wname tag (some t) none = subclassTags tags wname tag none none ∧
    ∃ pre post : List String,
      tags = pre ++ wname :: post ∧ wname ∉ pre ∧
      subclassTags tags wname tag (some t) none = some (pre ++ wname :: tag :: post) := by
  obtain ⟨pre, post, hsplit, hnm⟩ := TkUtil.exists_first_split hw
  have hcore := subclass_insert_core tags wname tag pre post hsplit hnm
  exact ⟨rfl, pre, post, hsplit, hnm, hcore⟩

/-- Witness for C10 at a concrete bindtags list. -/
theorem C10_after_ignored_witness :
    (".w" ∈ [".w", "Text", ".", "all"]) ∧ ("." ∈ [".w", "Text", ".", "all"]) ∧
    (subclassTags [".w", "Text", ".", "all"] ".w" "MyText" (some ".") none =
      subclassTags [".w", "Text", ".", "all"] ".w" "MyText" none none ∧
    ∃ pre post : List String,
      [".w", "Text", ".", "all"] = pre ++ ".w" :: post ∧ ".w" ∉ pre ∧
      subclassTags [".w", "Text", ".", "all"] ".w" "MyText" (some ".") none =
        some (pre ++ ".w" :: "MyText" :: post)) :=
  ⟨by decide, by decide,
    C10_after_ignored [".w", "Text", ".", "all"] ".w" "MyText" "." (by decide) (by decide)⟩

end TkUtil.Bindtags

namespace TkUtil.Bindings

theorem land_two_pow_ne_zero_iff (k state : Nat) :
    ((2 ^ k) &&& state ≠ 0) ↔ state.testBit k = true := by
  constructor
  · intro h
    by_contra htb
    apply h
    apply Nat.eq_of_testBit_eq
    intro i
    rw [Nat.testBit_land, Nat.zero_testBit, Nat.testBit_two_pow]
    by_cases hik : k = i
    · subst hik
      simp [Bool.not_eq_true] at htb
      simp [htb]
    · simp [hik]
  · intro htb h0
    have hc := congrArg (fun n => Nat.testBit n k) h0
    simp only [Nat.testBit_land, Nat.testBit_two_pow, Nat.zero_testBit] at hc
    simp [htb] at hc

/-- Claim C5: on `_EvState(state)`, `__getattr__` returns
`bits[name] & state` for a name in the table (truthy exactly when the
corresponding bit of `state` is set), and signals `AttributeError`
(`none`) for any name outside the table. -/
theorem C5_evstate_bits (state : Nat) (name : String) (b k : Nat)
    (hb : evStateBits.lookup name = some b) (hk : b = 1 <<< k) :
    evStateGetattr state name = some (b &&& state) ∧
    ((b &&& state ≠ 0) ↔ state.testBit k = true) ∧
    (∀ m : String, evStateBits.lookup m = none → evStateGetattr state m = none) := by
  refine ⟨by simp [evStateGetattr, hb], ?_, ?_⟩
  · subst hk
    rw [Nat.shiftLeft_eq, one_mul]
    exact land_two_pow_ne_zero_iff k state
  · intro m hm
    simp [evStateGetattr, hm]

/-- Witness for C5: the `Control` flag on state 5, plus an unknown name. -/
theorem C5_evstate_bits_witness :
    evStateBits.lookup "Control" = some 4 ∧ (4 : Nat) = 1 <<< 2 ∧
    (evStateGetattr 5 "Control" = some (4 &&& 5) ∧
      ((4 &&& 5 ≠ 0) ↔ (5 : Nat).testBit 2 = true) ∧
      evStateGetattr 5 "nope" = none) :=
  ⟨by decide, by decide,
    have h := C5_evstate_bits 5 "Control" 4 2 (by decide) (by decide)
    ⟨h.1, h.2.1, h.2.2 "nope" (by decide)⟩⟩

/-- Counterexample to claim C8 as stated: a wrapper for a zero-argument
function computes an empty converter list, so a second `bind` does not
raise. -/
theorem C8_counterexample : ¬ c8Claim := by
  intro h
  have h2 := h (fun _ => ()) [] "cmd" [] [] ["cmd"] true rfl
  exact h2.2 ([], ["cmd"], false) rfl

/-- Claim C8 amended: for a wrapper with at least one argument name, the
first `bind` registers the command exactly when absent, and every
subsequent `bind` raises. -/
theorem C8_bind_once {Conv : Type _} (scopeconv : String → Conv) (argnames : List String)
    (h : argnames ≠ []) (name : String) (cmds : List String)
    (cv' : List Conv) (cmds' : List String) (reg : Bool)
    (hb : wrapperBind scopeconv argnames [] name cmds = Except.ok (cv', cmds', reg)) :
    (reg = true ↔ name ∉ cmds) ∧
    (cmds' = if name ∈ cmds then cmds else name :: cmds) ∧
    (∀ r, wrapperBind scopeconv argnames cv' name cmds' ≠ Except.ok r) := by
  have hlen : argnames.length ≠ 0 := by
    cases argnames with
    | nil => exact absurd rfl h
    | cons a t => simp
  by_cases hm : name ∈ cmds
  · unfold wrapperBind at hb
    simp only [List.length_nil, ne_eq, not_true_eq_false, if_false, reduceIte, hm,
      if_true, Except.ok.injEq, Prod.mk.injEq] at hb
    obtain ⟨hcv, hcmds, hreg⟩ := hb
    subst hcv hcmds hreg
    refine ⟨by simp [hm], by simp [hm], ?_⟩
    intro r
    unfold wrapperBind
    have hl2 : (argnames.map scopeconv).length ≠ 0 := by simpa using hlen
    simp [hl2, h]
  · unfold wrapperBind at hb
    simp only [List.length_nil, ne_eq, not_true_eq_false, if_false, reduceIte, hm,
      if_true, Except.ok.injEq, Prod.mk.injEq] at hb
    obtain ⟨hcv, hcmds, hreg⟩ := hb
    subst hcv hcmds hreg
    refine ⟨by simp [hm], by simp [hm], ?_⟩
    intro r
    unfold wrapperBind
    have hl2 : (argnames.map scopeconv).length ≠ 0 := by simpa using hlen
    simp [hl2, h]

/-- Witness for the amended C8: a one-argument wrapper, bound twice. -/
theorem C8_bind_once_witness :
    (["x"] ≠ ([] : List String)) ∧
    wrapperBind (fun _ => ()) ["x"] [] "c" [] = Except.ok ([()], ["c"], true) ∧
    (true = true ↔ "c" ∉ ([] : List String)) ∧
    wrapperBind (fun _ => ()) ["x"] [()] "c" ["c"] ≠
      Except.ok ([()], ["c"], true) :=
  have hb : wrapperBind (fun _ => ()) ["x"] [] "c" [] = Except.ok ([()], ["c"], true) := rfl
  have h := C8_bind_once (fun _ => ()) ["x"] (by simp) "c" [] [()] ["c"] true hb
  ⟨by simp, hb, h.1, h.2.2 ([()], ["c"], true)⟩

end TkUtil.Bindings

namespace TkUtil.Scrollframe

/-- Counterexample to claim C6 as stated: if the mouse is over a
scrollable x-bar, `_show` returns early and leaves a stale lifted
y-bar lifted even though its `get()` is `(0.0, 1.0)`. -/
theorem C6_counterexample : ¬ c6Claim := by
  intro h
  have h2 := (h
    { showx := true, showy := true,
      xget := ((2 : Rat), (3 : Rat)), yget := ((0 : Rat), (1 : Rat)),
      xrect := (0, 0, 2, 2), yrect := (0, 0, 2, 2), px := 1, py := 1 }
    { xlifted := false, ylifted := true }).2 (Or.inl rfl)
  revert h2
  norm_num [showStep, inRect, Prod.mk.injEq]

/-- Claim C6 amended: `_show` never lifts a scrollbar that has nothing
to scroll (or whose show flag is off), and if such a scrollbar was
hidden before the call it stays hidden after it. -/
theorem C6_show_preserves_hidden (env : ShowEnv) (s : ScrollState)
    (hx : (env.xget = ((0 : Rat), (1 : Rat)) ∨ env.showx = false) → s.xlifted = false)
    (hy : (env.yget = ((0 : Rat), (1 : Rat)) ∨ env.showy = false) → s.ylifted = false) :
    ((env.xget = ((0 : Rat), (1 : Rat)) ∨ env.showx = false) →
      (showStep env s).xlifted = false) ∧
    ((env.yget = ((0 : Rat), (1 : Rat)) ∨ env.showy = false) →
      (showStep env s).ylifted = false) := by
  unfold showStep
  split_ifs with h1 h2
  · constructor
    · intro hc
      rcases hc with hc | hc
      · exact absurd hc h1.2.1
      · exact absurd hc (by simp [h1.1])
    · intro hc
      exact hy hc
  · constructor
    · intro hc
      exact hx hc
    · intro hc
      rcases hc with hc | hc
      · exact absurd hc h2.2.1
      · exact absurd hc (by simp [h2.1])
  · exact ⟨fun _ => rfl, fun _ => rfl⟩

/-- Witness for the amended C6: the counterexample state with the
precondition restored (the full y-bar starts hidden). -/
theorem C6_show_preserves_hidden_witness :
    ((((2 : Rat), (3 : Rat)) = ((0 : Rat), (1 : Rat)) ∨ true = false) →
      false = false) ∧
    ((((0 : Rat), (1 : Rat)) = ((0 : Rat), (1 : Rat)) ∨ true = false) →
      false = false) ∧
    (((((2 : Rat), (3 : Rat)) = ((0 : Rat), (1 : Rat)) ∨ true = false) →
      (showStep
        { showx := true, showy := true,
          xget := ((2 : Rat), (3 : Rat)), yget := ((0 : Rat), (1 : Rat)),
          xrect := (0, 0, 2, 2), yrect := (0, 0, 2, 2), px := 1, py := 1 }
        { xlifted := false, ylifted := false }).xlifted = false) ∧
    ((((0 : Rat), (1 : Rat)) = ((0 : Rat), (1 : Rat)) ∨ true = false) →
      (showStep
        { showx := true, showy := true,
          xget := ((2 : Rat), (3 : Rat)), yget := ((0 : Rat), (1 : Rat)),
          xrect := (0, 0, 2, 2), yrect := (0, 0, 2, 2), px := 1, py := 1 }
        { xlifted := false, ylifted := false }).ylifted = false)) :=
  ⟨fun _ => rfl, fun _ => rfl,
    C6_show_preserves_hidden
      { showx := true, showy := true,
        xget := ((2 : Rat), (3 : Rat)), yget := ((0 : Rat), (1 : Rat)),
        xrect := (0, 0, 2, 2), yrect := (0, 0, 2, 2), px := 1, py := 1 }
      { xlifted := false, ylifted := false }
      (fun _ => rfl) (fun _ => rfl)⟩

end TkUtil.Scrollframe

namespace TkUtil.EmacsText

/-- Claim C7: with the mark set, `update_selection` leaves the `sel`
tag covering exactly the positions between the insert cursor and the
mark (lesser endpoint first), independent of any previous `sel`
range (which is removed first); the text, insert and mark are
untouched. -/
theorem C7_update_selection (s : TextState) (m : Nat) (h : s.mark = some m) :
    (∀ i, covered (updateSelection s) i = true ↔
      (min s.insert m ≤ i ∧ i < max s.insert m)) ∧
    (∀ oldsel, updateSelection { s with sel := oldsel } = updateSelection s) ∧
    (updateSelection s).insert = s.insert ∧ (updateSelection s).mark = s.mark := by
  refine ⟨?_, ?_, ?_, ?_⟩
  · intro i
    by_cases hc : s.insert < m
    · have hmin : min s.insert m = s.insert := min_eq_left hc.le
      have hmax : max s.insert m = m := max_eq_right hc.le
      simp [updateSelection, h, covered, hc, hmin, hmax]
    · have hle : m ≤ s.insert := Nat.le_of_not_lt hc
      by_cases he : m < s.insert
      · have hmin : min s.insert m = m := min_eq_right hle
        have hmax : max s.insert m = s.insert := max_eq_left hle
        simp [updateSelection, h, covered, hc, he, hmin, hmax]
      · have heq : m = s.insert := Nat.le_antisymm hle (Nat.le_of_not_lt he)
        simp [updateSelection, h, covered, hc, he, heq]
  · intro oldsel
    simp [updateSelection, h]
  · simp [updateSelection, h]
  · simp [updateSelection, h]

/-- Witness for C7: insert at 5, mark at 2, a stale selection present. -/
theorem C7_update_selection_witness :
    (({ insert := 5, mark := some 2, sel := some (0, 1) } : TextState).mark = some 2) ∧
    ((∀ i, covered (updateSelection { insert := 5, mark := some 2, sel := some (0, 1) }) i = true ↔
      (min 5 2 ≤ i ∧ i < max 5 2)) ∧
    (∀ oldsel, updateSelection { insert := 5, mark := some 2, sel := oldsel } =
      updateSelection { insert := 5, mark := some 2, sel := some (0, 1) }) ∧
    (updateSelection { insert := 5, mark := some 2, sel := some (0, 1) }).insert = 5 ∧
    (updateSelection { insert := 5, mark := some 2, sel := some (0, 1) }).mark = some 2) :=
  ⟨rfl, C7_update_selection { insert := 5, mark := some 2, sel := some (0, 1) } 2 rfl⟩

end TkUtil.EmacsText

namespace TkUtil.Bindings

theorem scopeSub_nil (k : String) : scopeSub [] k = eventSubs.lookup k := rfl

theorem mapM_option_eq_map {α β : Type _} (f : α → Option β) (d : β) :
    ∀ (l : List α), (∀ a ∈ l, (f a).isSome = true) →
      l.mapM f = some (l.map fun a => (f a).getD d) := by
  intro l
  induction l with
  | nil => intro _; rfl
  | cons a t ih =>
    intro h
    have ha : (f a).isSome = true := h a (List.mem_cons_self a t)
    obtain ⟨v, hv⟩ := Option.isSome_iff_exists.mp ha
    have ht := ih fun x hx => h x (List.mem_cons_of_mem a hx)
    rw [List.mapM_cons, hv, ht]
    simp [hv]

/-- Claim C2: when every argument name appears in the `Event` scope
table, `str(Wrapper(func))` is the command name `str(id(func)) +
func.__name__` followed by each argument's substitution code in
positional order, space-separated and newline-terminated; with
`dobreak=True` the same invocation is wrapped in the tcl guard
`if {"[...]" == "break"} break`. -/
theorem C2_wrapper_script (f : PyFunc)
    (h : ∀ a ∈ f.argnames, (eventSubs.lookup a).isSome = true) :
    wrapperScript f [] false =
      some (String.intercalate " "
        (wrapperName f :: f.argnames.map fun a => (eventSubs.lookup a).getD "") ++ "\n") ∧
    wrapperScript f [] true =
      some ("if \x7b\"[" ++ String.intercalate " "
        (wrapperName f :: f.argnames.map fun a => (eventSubs.lookup a).getD "") ++
        "]\" == \"break\"\x7d break\n") := by
  have hm : f.argnames.mapM (scopeSub []) =
      some (f.argnames.map fun a => (eventSubs.lookup a).getD "") := by
    have := mapM_option_eq_map (scopeSub []) "" f.argnames
      (by intro a ha; rw [scopeSub_nil]; exact h a ha)
    simpa [scopeSub_nil] using this
  constructor
  · unfold wrapperScript
    rw [hm]
    simp
  · unfold wrapperScript
    rw [hm]
    simp

/-- Witness for C2: a two-argument mouse callback, both scripts. -/
theorem C2_wrapper_script_witness :
    (∀ a ∈ ["x", "y"], (eventSubs.lookup a).isSome = true) ∧
    (wrapperScript ⟨99, "move", ["x", "y"]⟩ [] false =
      some (String.intercalate " "
        (wrapperName ⟨99, "move", ["x", "y"]⟩ ::
          ["x", "y"].map fun a => (eventSubs.lookup a).getD "") ++ "\n") ∧
    wrapperScript ⟨99, "move", ["x", "y"]⟩ [] true =
      some ("if \x7b\"[" ++ String.intercalate " "
        (wrapperName ⟨99, "move", ["x", "y"]⟩ ::
          ["x", "y"].map fun a => (eventSubs.lookup a).getD "") ++
        "]\" == \"break\"\x7d break\n")) ∧
    wrapperScript ⟨99, "move", ["x", "y"]⟩ [] false = some "99move %x %y\n" :=
  ⟨by decide, C2_wrapper_script ⟨99, "move", ["x", "y"]⟩ (by decide), by decide⟩

theorem foldl_convert_eq_map {V : Type _} :
    ∀ (l : List ((String → Option V) × String)) (init : List (String ⊕ V)),
      l.foldl (fun acc p => acc ++ [convertArg p.1 p.2]) init =
        init ++ l.map fun p => convertArg p.1 p.2 := by
  intro l
  induction l with
  | nil => intro init; simp
  | cons a t ih =>
    intro init
    rw [List.foldl_cons, ih]
    simp

/-- Claim C3: invoked with exactly as many string arguments as
converters, `Wrapper.__call__` converts every argument with its
converter, falls back to the original string when a converter raises,
calls the wrapped function with the results, and catches any exception
it raises: the call itself never propagates an exception. -/
theorem C3_wrapper_call {V E R : Type _} (convs : List (String → Option V))
    (f : List (String ⊕ V) → Except E R) (args : List String)
    (h : args.length = convs.length) :
    wrapperCall convs f args =
      Except.ok (match f (convertAll convs args) with
        | Except.ok r => some r
        | Except.error _ => none) ∧
    (convertAll convs args).length = args.length := by
  constructor
  · unfold wrapperCall
    rw [if_neg (by omega)]
    have hfold : (convs.zip args).foldl
        (fun acc p => acc ++ [convertArg p.1 p.2]) ([] : List (String ⊕ V)) =
        convertAll convs args := by
      rw [foldl_convert_eq_map (convs.zip args) []]
      rfl
    rw [hfold]
    cases hf : f (convertAll convs args) <;> simp [hf]
  · unfold convertAll
    rw [List.length_map, List.length_zip]
    omega

/-- Witness for C3: one succeeding converter, one raising converter, a
wrapped function that raises. -/
theorem C3_wrapper_call_witness :
    (["5", "zz"].length = [fun s : String => (s.toNat? : Option Nat),
      fun _ : String => (none : Option Nat)].length) ∧
    (wrapperCall [fun s : String => (s.toNat? : Option Nat),
        fun _ : String => (none : Option Nat)]
      (fun _ => (Except.error "boom" : Except String Nat)) ["5", "zz"] =
      Except.ok (match (fun (_ : List (String ⊕ Nat)) =>
          (Except.error "boom" : Except String Nat))
          (convertAll [fun s : String => (s.toNat? : Option Nat),
            fun _ : String => (none : Option Nat)] ["5", "zz"]) with
        | Except.ok r => some r
        | Except.error _ => none) ∧
    (convertAll [fun s : String => (s.toNat? : Option Nat),
      fun _ : String => (none : Option Nat)] ["5", "zz"]).length = ["5", "zz"].length) :=
  ⟨rfl, C3_wrapper_call
    [fun s : String => (s.toNat? : Option Nat), fun _ : String => (none : Option Nat)]
    (fun _ => (Except.error "boom" : Except String Nat)) ["5", "zz"] rfl⟩

end TkUtil.Bindings

namespace TkUtil

/-! ## Lexicographic order on code-point lists -/

theorem str_not_lt_nil {α : Type _} [LinearOrder α] (l : List α) : ¬ l < ([] : List α) := by
  intro h
  exact (List.Lex.not_nil_right (· < ·) l) h

theorem str_le_nil_iff {α : Type _} [LinearOrder α] (l : List α) : l ≤ ([] : List α) ↔ l = [] := by
  constructor
  · intro h
    rcases lt_or_eq_of_le h with h' | h'
    · exact absurd h' (str_not_lt_nil l)
    · exact h'
  · rintro rfl; exact le_refl _

theorem str_cons_lt_cons_iff {α : Type _} [LinearOrder α] (a b : α) (s t : List α) :
    (a :: s) < (b :: t) ↔ a < b ∨ (a = b ∧ s < t) := by
  constructor
  · intro h
    have h' : List.Lex (· < ·) (a :: s) (b :: t) := h
    cases h' with
    | cons h2 => exact Or.inr ⟨rfl, h2⟩
    | rel h2 => exact Or.inl h2
  · rintro (h | ⟨rfl, h⟩)
    · exact List.Lex.rel h
    · exact List.Lex.cons h

theorem str_cons_le_cons_iff {α : Type _} [LinearOrder α] (a b : α) (s t : List α) :
    (a :: s) ≤ (b :: t) ↔ a < b ∨ (a = b ∧ s ≤ t) := by
  rw [le_iff_lt_or_eq, str_cons_lt_cons_iff]
  constructor
  · rintro ((h | ⟨rfl, h⟩) | h)
    · exact Or.inl h
    · exact Or.inr ⟨rfl, le_of_lt h⟩
    · rw [List.cons.injEq] at h
      exact Or.inr ⟨h.1, le_of_eq h.2⟩
  · rintro (h | ⟨rfl, h⟩)
    · exact Or.inl (Or.inl h)
    · rcases lt_or_eq_of_le h with h' | h'
      · exact Or.inl (Or.inr ⟨rfl, h'⟩)
      · exact Or.inr (by rw [h'])

theorem str_le_append_self {α : Type _} [LinearOrder α] :
    ∀ (l w : List α), l ≤ l ++ w := by
  intro l
  induction l with
  | nil => intro w; exact List.nil_le
  | cons a t ih =>
    intro w
    rw [List.cons_append, str_cons_le_cons_iff]
    exact Or.inr ⟨rfl, ih w⟩

theorem str_prefix_le {α : Type _} [LinearOrder α] {s t : List α} (h : s <+: t) : s ≤ t := by
  obtain ⟨w, rfl⟩ := h
  exact str_le_append_self s w

theorem str_append_lt_append_iff {α : Type _} [LinearOrder α] :
    ∀ (u s t : List α), u ++ s < u ++ t ↔ s < t := by
  intro u
  induction u with
  | nil => intro s t; simp
  | cons a u' ih =>
    intro s t
    rw [List.cons_append, List.cons_append, str_cons_lt_cons_iff]
    simp [ih]

theorem str_lt_replicate {α : Type _} [LinearOrder α] (M : α) :
    ∀ (t : List α) (k : Nat), (∀ c ∈ t, c ≤ M) → t.length < k →
      t < List.replicate k M := by
  intro t
  induction t with
  | nil =>
    intro k _ hk
    have : ∃ k', k = k' + 1 := ⟨k - 1, by omega⟩
    obtain ⟨k', rfl⟩ := this
    rw [List.replicate_succ]
    exact List.nil_lt_cons M _
  | cons c t' ih =>
    intro k hval hk
    have : ∃ k', k = k' + 1 := ⟨k - 1, by omega⟩
    obtain ⟨k', rfl⟩ := this
    rw [List.replicate_succ, str_cons_lt_cons_iff]
    have hcM : c ≤ M := hval c (List.mem_cons_self c t')
    rcases lt_or_eq_of_le hcM with h | h
    · exact Or.inl h
    · refine Or.inr ⟨h, ih k' (fun x hx => hval x (List.mem_cons_of_mem c hx)) (by
        simp at hk; omega)⟩

theorem str_prefix_of_le_of_lt_append {α : Type _} [LinearOrder α] :
    ∀ (v r w : List α), v ≤ r → r < v ++ w → v <+: r := by
  intro v
  induction v with
  | nil => intro r w _ _; exact List.nil_prefix
  | cons a v' ih =>
    intro r w h1 h2
    cases r with
    | nil => exact absurd ((str_le_nil_iff _).mp h1) (by simp)
    | cons d r' =>
      rw [str_cons_le_cons_iff] at h1
      rw [List.cons_append, str_cons_lt_cons_iff] at h2
      rcases h1 with h1 | ⟨rfl, h1⟩
      · rcases h2 with h2 | ⟨rfl, h2⟩
        · exact absurd h2 (lt_asymm h1)
        · exact absurd h1 (lt_irrefl _)
      · rcases h2 with h2 | ⟨-, h2⟩
        · exact absurd h2 (lt_irrefl _)
        · rw [List.cons_prefix_cons]
          exact ⟨rfl, ih r' w h1 h2⟩

theorem str_np_core :
    ∀ (u : List Nat) (c : Nat) (r : List Nat),
      ((u ++ [c] ≤ r ∧ r < u ++ [c + 1]) ↔ (u ++ [c]) <+: r) := by
  intro u
  induction u with
  | nil =>
    intro c r
    cases r with
    | nil =>
      simp only [List.nil_append]
      constructor
      · rintro ⟨h1, _⟩
        exact absurd ((str_le_nil_iff _).mp h1) (by simp)
      · intro h
        exact absurd (List.IsPrefix.length_le h) (by simp)
    | cons d r' =>
      simp only [List.nil_append]
      rw [str_cons_le_cons_iff, str_cons_lt_cons_iff, List.cons_prefix_cons]
      constructor
      · rintro ⟨h1, h2⟩
        have hd : c = d := by
          rcases h2 with h2 | ⟨rfl, h2⟩
          · rcases h1 with h1 | ⟨rfl, _⟩
            · omega
            · rfl
          · exact absurd h2 (str_not_lt_nil r')
        exact ⟨hd, List.nil_prefix⟩
      · rintro ⟨rfl, _⟩
        exact ⟨Or.inr ⟨rfl, List.nil_le⟩, Or.inl (by omega)⟩
  | cons a u' ih =>
    intro c r
    cases r with
    | nil =>
      simp only [List.cons_append]
      constructor
      · rintro ⟨h1, _⟩
        exact absurd ((str_le_nil_iff _).mp h1) (by simp)
      · intro h
        exact absurd (List.IsPrefix.length_le h) (by simp)
    | cons d r' =>
      simp only [List.cons_append]
      rw [str_cons_le_cons_iff, str_cons_lt_cons_iff, List.cons_prefix_cons]
      constructor
      · rintro ⟨h1, h2⟩
        rcases h1 with h1 | ⟨rfl, h1⟩
        · rcases h2 with h2 | ⟨rfl, h2⟩
          · exact absurd h2 (lt_asymm h1)
          · exact absurd h1 (lt_irrefl _)
        · rcases h2 with h2 | ⟨-, h2⟩
          · exact absurd h2 (lt_irrefl _)
          · exact ⟨rfl, (ih c r').mp ⟨h1, h2⟩⟩
      · rintro ⟨rfl, hpre⟩
        have := (ih c r').mpr hpre
        exact ⟨Or.inr ⟨rfl, this.1⟩, Or.inr ⟨rfl, this.2⟩⟩

end TkUtil

namespace TkUtil

/-! ## Bisect on sorted lists -/

theorem sorted_getD_countP {α : Type _} [LinearOrder α] (p : α → Bool)
    (hp : ∀ y z, y ≤ z → p z = true → p y = true) :
    ∀ (a : List α), a.Sorted (· ≤ ·) → ∀ (i : Nat) (d : α), i < a.length →
      (p (a.getD i d) = true ↔ i < a.countP p) := by
  intro a
  induction a with
  | nil => intro _ i d hi; simp at hi
  | cons hd t ih =>
    intro hs i d hi
    rw [List.sorted_cons] at hs
    obtain ⟨hhd, hst⟩ := hs
    rw [List.countP_cons]
    cases i with
    | zero =>
      rw [List.getD_cons_zero]
      by_cases hph : p hd = true
      · simp [hph]
      · have ht0 : t.countP p = 0 :=
          List.countP_eq_zero.mpr fun y hy hpy => hph (hp hd y (hhd y hy) hpy)
        simp [hph, ht0]
    | succ j =>
      rw [List.getD_cons_succ]
      have hj : j < t.length := by simpa using hi
      by_cases hph : p hd = true
      · rw [ih hst j d hj]
        simp [hph]
      · have ht0 : t.countP p = 0 :=
          List.countP_eq_zero.mpr fun y hy hpy => hph (hp hd y (hhd y hy) hpy)
        rw [ih hst j d hj, ht0]
        simp [hph]

theorem bisectLeft_eq {α : Type _} [LinearOrder α] (a : List α) (x : α)
    (hs : a.Sorted (· ≤ ·)) :
    ∀ (lo hi : Nat), hi ≤ a.length → lo ≤ hi →
      bisectLeft a x lo hi = min hi (max lo (a.countP fun y => decide (y < x))) := by
  have hkey : ∀ (i : Nat) (d : α), i < a.length →
      (a.getD i d < x ↔ i < a.countP fun y => decide (y < x)) := by
    intro i d hi
    have := sorted_getD_countP (fun y => decide (y < x))
      (fun y z hyz hz => by
        simp only [decide_eq_true_eq] at hz ⊢
        exact lt_of_le_of_lt hyz hz) a hs i d hi
    simpa using this
  have main : ∀ (fuel lo hi : Nat), hi - lo ≤ fuel → hi ≤ a.length → lo ≤ hi →
      bisectLeft a x lo hi = min hi (max lo (a.countP fun y => decide (y < x))) := by
    intro fuel
    induction fuel with
    | zero =>
      intro lo hi hfuel hhi hlo
      have : lo = hi := by omega
      subst this
      unfold bisectLeft
      rw [dif_neg (by omega)]
      have hc := List.countP_le_length (fun y => decide (y < x)) (l := a)
      omega
    | succ fuel ih =>
      intro lo hi hfuel hhi hlo
      by_cases h : lo < hi
      · have hmid1 : lo ≤ (lo + hi) / 2 := by omega
        have hmid2 : (lo + hi) / 2 < hi := by omega
        unfold bisectLeft
        rw [dif_pos h]
        show (if a.getD ((lo + hi) / 2) x < x then bisectLeft a x ((lo + hi) / 2 + 1) hi
          else bisectLeft a x lo ((lo + hi) / 2)) = _
        by_cases hcmp : a.getD ((lo + hi) / 2) x < x
        · rw [if_pos hcmp]
          have hlt := (hkey ((lo + hi) / 2) x (by omega)).mp hcmp
          rw [ih ((lo + hi) / 2 + 1) hi (by omega) hhi (by omega)]
          omega
        · rw [if_neg hcmp]
          have hge : ¬ ((lo + hi) / 2 < a.countP fun y => decide (y < x)) :=
            fun hc => hcmp ((hkey ((lo + hi) / 2) x (by omega)).mpr hc)
          rw [ih lo ((lo + hi) / 2) (by omega) (by omega) (by omega)]
          omega
      · unfold bisectLeft
        rw [dif_neg h]
        have hc := List.countP_le_length (fun y => decide (y < x)) (l := a)
        omega
  intro lo hi hhi hlo
  exact main (hi - lo) lo hi (le_refl _) hhi hlo

theorem bisectRight_eq {α : Type _} [LinearOrder α] (a : List α) (x : α)
    (hs : a.Sorted (· ≤ ·)) :
    ∀ (lo hi : Nat), hi ≤ a.length → lo ≤ hi →
      bisectRight a x lo hi = min hi (max lo (a.countP fun y => decide (y ≤ x))) := by
  have hkey : ∀ (i : Nat) (d : α), i < a.length →
      (a.getD i d ≤ x ↔ i < a.countP fun y => decide (y ≤ x)) := by
    intro i d hi
    have := sorted_getD_countP (fun y => decide (y ≤ x))
      (fun y z hyz hz => by
        simp only [decide_eq_true_eq] at hz ⊢
        exact le_trans hyz hz) a hs i d hi
    simpa using this
  have main : ∀ (fuel lo hi : Nat), hi - lo ≤ fuel → hi ≤ a.length → lo ≤ hi →
      bisectRight a x lo hi = min hi (max lo (a.countP fun y => decide (y ≤ x))) := by
    intro fuel
    induction fuel with
    | zero =>
      intro lo hi hfuel hhi hlo
      have : lo = hi := by omega
      subst this
      unfold bisectRight
      rw [dif_neg (by omega)]
      have hc := List.countP_le_length (fun y => decide (y ≤ x)) (l := a)
      omega
    | succ fuel ih =>
      intro lo hi hfuel hhi hlo
      by_cases h : lo < hi
      · have hmid1 : lo ≤ (lo + hi) / 2 := by omega
        have hmid2 : (lo + hi) / 2 < hi := by omega
        unfold bisectRight
        rw [dif_pos h]
        show (if x < a.getD ((lo + hi) / 2) x then bisectRight a x lo ((lo + hi) / 2)
          else bisectRight a x ((lo + hi) / 2 + 1) hi) = _
        by_cases hcmp : x < a.getD ((lo + hi) / 2) x
        · rw [if_pos hcmp]
          have hge : ¬ ((lo + hi) / 2 < a.countP fun y => decide (y ≤ x)) :=
            fun hc => absurd ((hkey ((lo + hi) / 2) x (by omega)).mpr hc) (not_le_of_lt hcmp)
          rw [ih lo ((lo + hi) / 2) (by omega) (by omega) (by omega)]
          omega
        · rw [if_neg hcmp]
          have hlt := (hkey ((lo + hi) / 2) x (by omega)).mp (le_of_not_lt hcmp)
          rw [ih ((lo + hi) / 2 + 1) hi (by omega) hhi (by omega)]
          omega
      · unfold bisectRight
        rw [dif_neg h]
        have hc := List.countP_le_length (fun y => decide (y ≤ x)) (l := a)
        omega
  intro lo hi hhi hlo
  exact main (hi - lo) lo hi (le_refl _) hhi hlo

end TkUtil

namespace TkUtil

/-! ## Sorted slices as filters, positions, inverse permutations -/

theorem sorted_filter_eq_drop_take {α β : Type _} [LinearOrder β] (key : α → β)
    (p q : β → Bool) (hpq : ∀ y, p y = true → q y = true)
    (hp : ∀ y z, y ≤ z → p z = true → p y = true)
    (hq : ∀ y z, y ≤ z → q z = true → q y = true) :
    ∀ (l : List α), (l.map key).Sorted (· ≤ ·) →
      l.filter (fun e => !(p (key e)) && q (key e)) =
        (l.drop (l.countP fun e => p (key e))).take
          ((l.countP fun e => q (key e)) - (l.countP fun e => p (key e))) := by
  intro l
  induction l with
  | nil => intro _; simp
  | cons e t ih =>
    intro hs
    rw [List.map_cons, List.sorted_cons] at hs
    obtain ⟨hhd, hst⟩ := hs
    have hmono : ∀ y ∈ t, key e ≤ key y := by
      intro y hy
      exact hhd (key y) (List.mem_map_of_mem key hy)
    rw [List.filter_cons, List.countP_cons, List.countP_cons]
    by_cases hpe : p (key e) = true
    · have hqe : q (key e) = true := hpq _ hpe
      simp only [hpe, hqe, Bool.not_true, Bool.false_and, if_true, reduceIte]
      rw [List.drop_succ_cons]
      rw [ih hst]
      rw [Nat.add_sub_add_right]
      simp
    · by_cases hqe : q (key e) = true
      · have hpt : (t.countP fun x => p (key x)) = 0 :=
          List.countP_eq_zero.mpr fun y hy hpy => hpe (hp (key e) (key y) (hmono y hy) hpy)
        have hpe' : p (key e) = false := by simpa using hpe
        simp only [hpe', hqe, Bool.not_false, Bool.true_and, if_true, reduceIte, if_false]
        rw [ih hst, hpt]
        simp
      · have hpe' : p (key e) = false := by simpa using hpe
        have hqe' : q (key e) = false := by simpa using hqe
        have hqt : (t.countP fun x => q (key x)) = 0 :=
          List.countP_eq_zero.mpr fun y hy hqy => hqe (hq (key e) (key y) (hmono y hy) hqy)
        have hpt : (t.countP fun x => p (key x)) = 0 :=
          List.countP_eq_zero.mpr fun y hy hpy =>
            hqe (hpq _ (hp (key e) (key y) (hmono y hy) hpy))
        have hft : t.filter (fun x => !(p (key x)) && q (key x)) = [] := by
          rw [List.filter_eq_nil]
          intro y hy
          intro hc
          rw [Bool.and_eq_true] at hc
          exact hqe (hq (key e) (key y) (hmono y hy) hc.2)
        simp [hpe', hqe', hqt, hpt, hft]

theorem range'_map_getD {α : Type _} (l : List α) (d : α) :
    ∀ (k a : Nat), a + k ≤ l.length →
      (List.range' a k).map (fun i => l.getD i d) = (l.drop a).take k := by
  intro k
  induction k with
  | zero => intro a _; simp
  | succ k ih =>
    intro a hak
    rw [List.range'_succ, List.map_cons, ih (a + 1) (by omega)]
    have ha : a < l.length := by omega
    rw [show l.drop a = l[a] :: l.drop (a + 1) from List.drop_eq_getElem_cons ha]
    rw [List.take_succ_cons]
    rw [List.getD_eq_getElem l d ha]

theorem filter_eq_enum_filter {α : Type _} (p : α → Bool) (l : List α) :
    l.filter p = (l.enum.filter fun q => p q.2).map Prod.snd := by
  conv_lhs => rw [← List.enum_map_snd l]
  rw [List.filter_map]
  rfl

theorem mem_enum_filter_fst {α : Type _} (p : α → Bool) (l : List α) (d : α) (j : Nat) :
    j ∈ (l.enum.filter fun q => p q.2).map Prod.fst ↔
      (j < l.length ∧ p (l.getD j d) = true) := by
  constructor
  · intro h
    obtain ⟨q, hq, hfst⟩ := List.mem_map.mp h
    obtain ⟨hqe, hqp⟩ := List.mem_filter.mp hq
    obtain ⟨hlt, hval⟩ := List.mem_enum hqe
    subst hfst
    refine ⟨hlt, ?_⟩
    rw [List.getD_eq_getElem l d hlt, ← hval]
    exact hqp
  · rintro ⟨hj, hp⟩
    apply List.mem_map.mpr
    refine ⟨(j, l[j]), ?_, rfl⟩
    apply List.mem_filter.mpr
    constructor
    · have hjlen : j < l.enum.length := by simpa [List.enum_length] using hj
      have : l.enum[j] = (j, l[j]) := List.getElem_enum l j _
      exact this ▸ List.getElem_mem _
    · rw [List.getD_eq_getElem l d hj] at hp
      exact hp

theorem enum_filter_fst_sublist {α : Type _} (p : α → Bool) (l : List α) :
    ((l.enum.filter fun q => p q.2).map Prod.fst).Sublist (List.range l.length) := by
  have h1 : (l.enum.filter fun q => p q.2).Sublist l.enum := List.filter_sublist _
  have h2 := h1.map Prod.fst
  rwa [List.enum_map_fst] at h2

theorem enum_filter_fst_sorted {α : Type _} (p : α → Bool) (l : List α) :
    ((l.enum.filter fun q => p q.2).map Prod.fst).Sorted (· ≤ ·) := by
  have := List.Pairwise.sublist (enum_filter_fst_sublist p l) (List.pairwise_lt_range l.length)
  exact this.imp fun h => le_of_lt h

theorem enum_filter_fst_nodup {α : Type _} (p : α → Bool) (l : List α) :
    ((l.enum.filter fun q => p q.2).map Prod.fst).Nodup :=
  (List.nodup_range l.length).sublist (enum_filter_fst_sublist p l)

theorem foldl_set_getD_of_ne (v : Nat) :
    ∀ (ps : List (Nat × Nat)) (acc : List Nat), (∀ q ∈ ps, q.2 ≠ v) →
      (ps.foldl (fun acc p => acc.set p.2 p.1) acc).getD v 0 = acc.getD v 0 := by
  intro ps
  induction ps with
  | nil => intro acc _; rfl
  | cons q t ih =>
    intro acc hne
    rw [List.foldl_cons, ih _ (fun x hx => hne x (List.mem_cons_of_mem q hx))]
    rw [List.getD_eq_getElem?_getD, List.getD_eq_getElem?_getD]
    rw [List.getElem?_set_ne (hne q (List.mem_cons_self q t))]

theorem foldl_set_write :
    ∀ (ps : List (Nat × Nat)) (acc : List Nat), (ps.map Prod.snd).Nodup →
      (∀ q ∈ ps, q.2 < acc.length) → ∀ q ∈ ps,
        (ps.foldl (fun acc p => acc.set p.2 p.1) acc).getD q.2 0 = q.1 := by
  intro ps
  induction ps with
  | nil => intro acc _ _ q hq; simp at hq
  | cons q0 t ih =>
    intro acc hnd hlt q hq
    rw [List.map_cons, List.nodup_cons] at hnd
    rw [List.foldl_cons]
    rcases List.mem_cons.mp hq with rfl | hq'
    · have hnotin : ∀ x ∈ t, x.2 ≠ q.2 := by
        intro x hx hc
        exact hnd.1 (hc ▸ List.mem_map_of_mem Prod.snd hx)
      rw [foldl_set_getD_of_ne q.2 t _ hnotin]
      rw [List.getD_eq_getElem?_getD,
        List.getElem?_set_self (hlt q (List.mem_cons_self q t))]
      rfl
    · exact ih (acc.set q0.2 q0.1) hnd.2
        (fun x hx => by
          rw [List.length_set]
          exact hlt x (List.mem_cons_of_mem q0 hx)) q hq'

theorem mkRinds_getD (L : List Nat) (hnd : L.Nodup) (hb : ∀ x ∈ L, x < L.length) :
    ∀ j, j < L.length → (ItemSelector.mkRinds L).getD (L.getD j 0) 0 = j := by
  intro j hj
  have hmem : (j, L[j]) ∈ L.enum := by
    have hjlen : j < L.enum.length := by simpa [List.enum_length] using hj
    have : L.enum[j] = (j, L[j]) := List.getElem_enum L j _
    exact this ▸ List.getElem_mem _
  have hsnd : (L.enum.map Prod.snd).Nodup := by
    rw [List.enum_map_snd]; exact hnd
  have hlt : ∀ q ∈ L.enum, q.2 < L.length := by
    intro q hq
    have : q.2 ∈ L.enum.map Prod.snd := List.mem_map_of_mem Prod.snd hq
    rw [List.enum_map_snd] at this
    exact hb q.2 this
  have := foldl_set_write L.enum L hsnd hlt (j, L[j]) hmem
  unfold ItemSelector.mkRinds
  rw [List.getD_eq_getElem L 0 hj]
  exact this

theorem le_foldr_max : ∀ (l : List Nat) (x : Nat), x ∈ l → x ≤ l.foldr max 0 := by
  intro l
  induction l with
  | nil => intro x hx; simp at hx
  | cons a t ih =>
    intro x hx
    rw [List.foldr_cons]
    rcases List.mem_cons.mp hx with rfl | hx'
    · exact le_max_left _ _
    · exact le_trans (ih x hx') (le_max_right _ _)

theorem filter_eq_singleton_of_nodup {α : Type _} [DecidableEq α] (v : α) :
    ∀ (l : List α), l.Nodup →
      l.filter (fun x => decide (x = v)) = if v ∈ l then [v] else [] := by
  intro l
  induction l with
  | nil => intro _; simp
  | cons a t ih =>
    intro hnd
    rw [List.nodup_cons] at hnd
    rw [List.filter_cons]
    by_cases hav : a = v
    · subst hav
      have : t.filter (fun x => decide (x = a)) = [] := by
        rw [List.filter_eq_nil]
        intro y hy hc
        rw [decide_eq_true_eq] at hc
        exact hnd.1 (hc ▸ hy)
      simp [this]
    · have h2 := ih hnd.2
      have hva : ¬ v = a := fun hc => hav hc.symm
      by_cases hvt : v ∈ t
      · simp [hav, h2, hvt, List.mem_cons]
      · simp [hav, hva, h2, hvt, List.mem_cons]

end TkUtil

namespace TkUtil.ItemSelector

/-! ## `_next_prefix` delimits exactly the strings with the given prefix -/

theorem nextPrefix_concat (longest : Nat) (u : List Nat) (c : Nat) :
    nextPrefix longest (u ++ [c]) =
      if c + 1 ≤ maxunicode then u ++ [c + 1]
      else (u ++ [c]) ++ List.replicate (1 + longest - (u ++ [c]).length) c := by
  unfold nextPrefix
  rw [dif_neg (by simp)]
  have hlast : (u ++ [c]).getLast (by simp) = c := by simp [List.getLast_append]
  rw [hlast, List.dropLast_concat]

theorem exists_concat_of_ne_nil {val : Str} (h : val ≠ []) :
    ∃ u c, val = u ++ [c] := by
  rcases List.eq_nil_or_concat val with h' | ⟨u, c, hc⟩
  · exact absurd h' h
  · exact ⟨u, c, by rw [hc, List.concat_eq_append]⟩

theorem le_nextPrefix (longest : Nat) (val : Str) : val ≤ nextPrefix longest val := by
  by_cases h1 : val = []
  · subst h1
    unfold nextPrefix
    rw [dif_pos rfl]
    exact List.nil_le
  · obtain ⟨u, c, rfl⟩ := exists_concat_of_ne_nil h1
    rw [nextPrefix_concat]
    by_cases h2 : c + 1 ≤ maxunicode
    · rw [if_pos h2]
      apply le_of_lt
      rw [str_append_lt_append_iff]
      exact List.Lex.rel (by omega)
    · rw [if_neg h2]
      exact str_le_append_self _ _

theorem np_interval (longest : Nat) (val r : Str)
    (hval : ∀ c ∈ val, c ≤ maxunicode) (hr : ∀ c ∈ r, c ≤ maxunicode)
    (hlen : r.length ≤ longest) :
    (val ≤ r ∧ r < nextPrefix longest val) ↔ val <+: r := by
  by_cases h1 : val = []
  · subst h1
    unfold nextPrefix
    rw [dif_pos rfl]
    constructor
    · intro _
      exact List.nil_prefix
    · intro _
      exact ⟨List.nil_le, str_lt_replicate maxunicode r (longest + 1) hr (by omega)⟩
  · obtain ⟨u, c, rfl⟩ := exists_concat_of_ne_nil h1
    rw [nextPrefix_concat]
    by_cases h2 : c + 1 ≤ maxunicode
    · rw [if_pos h2]
      exact str_np_core u c r
    · rw [if_neg h2]
      have hc : c = maxunicode := by
        have := hval c (by simp)
        omega
      subst hc
      constructor
      · rintro ⟨ha, hb⟩
        exact str_prefix_of_le_of_lt_append _ r _ ha hb
      · intro hp
        refine ⟨str_prefix_le hp, ?_⟩
        obtain ⟨t, rfl⟩ := hp
        rw [str_append_lt_append_iff]
        apply str_lt_replicate
        · intro x hx
          exact hr x (by simp [hx])
        · have hl := hlen
          simp only [List.length_append, List.length_cons, List.length_nil] at hl ⊢
          omega

end TkUtil.ItemSelector

namespace TkUtil.ItemSelector

/-! ## Structure of the `_prep_choices` data -/

theorem tupLe_fst_le {α β : Type _} [LinearOrder α] [LinearOrder β] {a b : α × β}
    (h : tupLe a b) : a.1 ≤ b.1 := by
  rcases h with h | ⟨h, _⟩
  · exact le_of_lt h
  · exact le_of_eq h

theorem pySorted_sorted {α β : Type _} [LinearOrder α] [LinearOrder β]
    (l : List (α × β)) : (pySorted l).Sorted tupLe :=
  List.sorted_insertionSort tupLe l

theorem pySorted_perm {α β : Type _} [LinearOrder α] [LinearOrder β]
    (l : List (α × β)) : (pySorted l).Perm l :=
  List.perm_insertionSort tupLe l

theorem pySorted_fst_sorted {α β : Type _} [LinearOrder α] [LinearOrder β]
    (l : List (α × β)) : ((pySorted l).map Prod.fst).Sorted (· ≤ ·) :=
  (pySorted_sorted l).map Prod.fst fun _ _ h => tupLe_fst_le h

section PrepData

variable (lowerfn : Nat → Nat) (cs : List Str)

theorem rawsAll_perm_cs : (rawsAllOf lowerfn cs).Perm cs := by
  unfold rawsAllOf prepTmp
  have h := (pySorted_perm (cs.map fun c => (lower lowerfn c, c))).map Prod.snd
  rw [List.map_map] at h
  have h2 : (Prod.snd ∘ fun c => (lower lowerfn c, c)) = id := rfl
  rw [h2, List.map_id] at h
  exact h

theorem rawsAll_length : (rawsAllOf lowerfn cs).length = cs.length :=
  (rawsAll_perm_cs lowerfn cs).length_eq

theorem prepTmp2_perm :
    (prepTmp2 lowerfn cs).Perm ((rawsAllOf lowerfn cs).enum.map fun p => (p.2, p.1)) :=
  pySorted_perm _

theorem mem_prepTmp2 :
    ∀ p ∈ prepTmp2 lowerfn cs, p.2 < (rawsAllOf lowerfn cs).length ∧
      p.1 = (rawsAllOf lowerfn cs).getD p.2 [] := by
  intro p hp
  have hp2 := (prepTmp2_perm lowerfn cs).mem_iff.mp hp
  obtain ⟨q, hq, hqp⟩ := List.mem_map.mp hp2
  obtain ⟨hlt, hval⟩ := List.mem_enum hq
  subst hqp
  refine ⟨hlt, ?_⟩
  rw [List.getD_eq_getElem _ [] hlt]
  exact hval

theorem raws_sorted : (rawsOf lowerfn cs).Sorted (· ≤ ·) :=
  pySorted_fst_sorted _

theorem lowers_sorted : (lowersOf lowerfn cs).Sorted (· ≤ ·) :=
  pySorted_fst_sorted _

theorem raws_perm_rawsAll : (rawsOf lowerfn cs).Perm (rawsAllOf lowerfn cs) := by
  unfold rawsOf
  have h := (prepTmp2_perm lowerfn cs).map Prod.fst
  rw [List.map_map] at h
  have h2 : (Prod.fst ∘ fun p : Nat × Str => (p.2, p.1)) = Prod.snd := rfl
  rw [h2, List.enum_map_snd] at h
  exact h

theorem raws_perm_cs : (rawsOf lowerfn cs).Perm cs :=
  (raws_perm_rawsAll lowerfn cs).trans (rawsAll_perm_cs lowerfn cs)

theorem raws_length : (rawsOf lowerfn cs).length = (rawsAllOf lowerfn cs).length :=
  (raws_perm_rawsAll lowerfn cs).length_eq

theorem lowers_length : (lowersOf lowerfn cs).length = (rawsAllOf lowerfn cs).length := by
  unfold lowersOf rawsAllOf
  rw [List.length_map, List.length_map]

theorem linds_perm_range :
    (lindsOf lowerfn cs).Perm (List.range (rawsAllOf lowerfn cs).length) := by
  unfold lindsOf
  have h := (prepTmp2_perm lowerfn cs).map Prod.snd
  rw [List.map_map] at h
  have h2 : (Prod.snd ∘ fun p : Nat × Str => (p.2, p.1)) = Prod.fst := rfl
  rw [h2, List.enum_map_fst] at h
  exact h

theorem linds_length : (lindsOf lowerfn cs).length = (rawsAllOf lowerfn cs).length := by
  have := (linds_perm_range lowerfn cs).length_eq
  rwa [List.length_range] at this

theorem linds_nodup : (lindsOf lowerfn cs).Nodup :=
  (linds_perm_range lowerfn cs).symm.nodup (List.nodup_range _)

theorem linds_mem_lt : ∀ x ∈ lindsOf lowerfn cs, x < (rawsAllOf lowerfn cs).length := by
  intro x hx
  have := (linds_perm_range lowerfn cs).mem_iff.mp hx
  exact List.mem_range.mp this

theorem raws_getD_eq (j : Nat) (hj : j < (rawsAllOf lowerfn cs).length) :
    (rawsOf lowerfn cs).getD j [] =
      (rawsAllOf lowerfn cs).getD ((lindsOf lowerfn cs).getD j 0) [] := by
  have hj2 : j < (prepTmp2 lowerfn cs).length := by
    have := raws_length lowerfn cs
    unfold rawsOf at this
    rw [List.length_map] at this
    omega
  have hmem : (prepTmp2 lowerfn cs)[j] ∈ prepTmp2 lowerfn cs := List.getElem_mem hj2
  obtain ⟨hlt, hval⟩ := mem_prepTmp2 lowerfn cs _ hmem
  unfold rawsOf lindsOf
  rw [List.getD_eq_getElem _ [] (by rw [List.length_map]; exact hj2),
    List.getD_eq_getElem _ 0 (by rw [List.length_map]; exact hj2)]
  rw [List.getElem_map, List.getElem_map]
  exact hval

theorem linds_getD_lt (j : Nat) (hj : j < (rawsAllOf lowerfn cs).length) :
    (lindsOf lowerfn cs).getD j 0 < (rawsAllOf lowerfn cs).length := by
  have hj2 : j < (lindsOf lowerfn cs).length := by rw [linds_length]; exact hj
  rw [List.getD_eq_getElem _ 0 hj2]
  exact linds_mem_lt lowerfn cs _ (List.getElem_mem hj2)

theorem linds_getD_inj (i j : Nat) (hi : i < (rawsAllOf lowerfn cs).length)
    (hj : j < (rawsAllOf lowerfn cs).length)
    (h : (lindsOf lowerfn cs).getD i 0 = (lindsOf lowerfn cs).getD j 0) : i = j := by
  have hi2 : i < (lindsOf lowerfn cs).length := by rw [linds_length]; exact hi
  have hj2 : j < (lindsOf lowerfn cs).length := by rw [linds_length]; exact hj
  rw [List.getD_eq_getElem _ 0 hi2, List.getD_eq_getElem _ 0 hj2] at h
  have := List.nodup_iff_injective_get.mp (linds_nodup lowerfn cs)
  have h2 := @this ⟨i, hi2⟩ ⟨j, hj2⟩ (by simpa [List.get_eq_getElem] using h)
  exact congrArg Fin.val h2

theorem linds_rinds (i : Nat) (hi : i < (rawsAllOf lowerfn cs).length) :
    (rindsOf lowerfn cs).getD i 0 < (rawsAllOf lowerfn cs).length ∧
      (lindsOf lowerfn cs).getD ((rindsOf lowerfn cs).getD i 0) 0 = i := by
  have hperm := linds_perm_range lowerfn cs
  have hmem : i ∈ lindsOf lowerfn cs :=
    hperm.mem_iff.mpr (List.mem_range.mpr hi)
  obtain ⟨j, hj, hval⟩ := List.mem_iff_getElem.mp hmem
  have hjlen : j < (rawsAllOf lowerfn cs).length := by rw [← linds_length lowerfn cs]; exact hj
  have hinv := mkRinds_getD (lindsOf lowerfn cs) (linds_nodup lowerfn cs)
    (fun x hx => by rw [linds_length]; exact linds_mem_lt lowerfn cs x hx) j hj
  have hgd : (lindsOf lowerfn cs).getD j 0 = i := by
    rw [List.getD_eq_getElem _ 0 hj]; exact hval
  rw [hgd] at hinv
  unfold rindsOf
  rw [hinv]
  exact ⟨hjlen, hgd⟩

theorem raws_longest : ∀ r ∈ rawsOf lowerfn cs, r.length ≤ longestOf lowerfn cs := by
  intro r hr
  unfold longestOf
  exact TkUtil.le_foldr_max _ _ (List.mem_map_of_mem List.length hr)

theorem cs_longest : ∀ c ∈ cs, c.length ≤ longestOf lowerfn cs := by
  intro c hc
  exact raws_longest lowerfn cs c ((raws_perm_cs lowerfn cs).mem_iff.mpr hc)

theorem mem_lowers (x : Str) (hx : x ∈ lowersOf lowerfn cs) :
    ∃ c ∈ cs, x = lower lowerfn c := by
  unfold lowersOf prepTmp at hx
  obtain ⟨p, hp, hpx⟩ := List.mem_map.mp hx
  have hp2 := (pySorted_perm _).mem_iff.mp hp
  obtain ⟨c, hc, hcp⟩ := List.mem_map.mp hp2
  exact ⟨c, hc, by rw [← hpx, ← hcp]⟩

theorem mem_rawsAll (x : Str) (hx : x ∈ rawsAllOf lowerfn cs) : x ∈ cs :=
  (rawsAll_perm_cs lowerfn cs).mem_iff.mp hx

end PrepData

end TkUtil.ItemSelector

namespace TkUtil.ItemSelector

/-! ## The two branches of `select` with `exact=False` -/

theorem decide_interval_eq (val bound x : Str) :
    (!decide (x < val) && decide (x < bound)) = decide (val ≤ x ∧ x < bound) := by
  by_cases h1 : x < val
  · simp [h1, not_le_of_lt h1]
  · by_cases h2 : x < bound
    · simp [h1, h2, le_of_not_lt h1]
    · simp [h1, h2]

theorem select_insensitive (lowerfn : Nat → Nat) (cs : List Str) (val : Str)
    (hlofn : ∀ c, c ≤ maxunicode → lowerfn c ≤ maxunicode)
    (hcs : ∀ s ∈ cs, ∀ c ∈ s, c ≤ maxunicode)
    (hval : ∀ c ∈ val, c ≤ maxunicode)
    (hlow : lower lowerfn val = val)
    (hn : (rawsOf lowerfn cs).length ≠ 0) :
    select lowerfn cs val false = specSelect lowerfn cs val := by
  have hbound := le_nextPrefix (longestOf lowerfn cs) val
  have hlen : (lowersOf lowerfn cs).length = (rawsAllOf lowerfn cs).length :=
    lowers_length lowerfn cs
  have hsort := lowers_sorted lowerfn cs
  have hc12 : ((lowersOf lowerfn cs).countP fun y => decide (y < val)) ≤
      ((lowersOf lowerfn cs).countP fun y =>
        decide (y < nextPrefix (longestOf lowerfn cs) val)) := by
    apply List.countP_mono_left
    intro x _ hx
    rw [decide_eq_true_eq] at hx ⊢
    exact lt_of_lt_of_le hx hbound
  have hc2len := List.countP_le_length
    (fun y => decide (y < nextPrefix (longestOf lowerfn cs) val))
    (l := lowersOf lowerfn cs)
  have hstop : bisectLeft (lowersOf lowerfn cs) (nextPrefix (longestOf lowerfn cs) val) 0
      (lowersOf lowerfn cs).length =
      ((lowersOf lowerfn cs).countP fun y =>
        decide (y < nextPrefix (longestOf lowerfn cs) val)) := by
    rw [bisectLeft_eq _ _ hsort 0 _ (le_refl _) (Nat.zero_le _)]
    omega
  have hstart : bisectLeft (lowersOf lowerfn cs) val 0
      ((lowersOf lowerfn cs).countP fun y =>
        decide (y < nextPrefix (longestOf lowerfn cs) val)) =
      ((lowersOf lowerfn cs).countP fun y => decide (y < val)) := by
    rw [bisectLeft_eq _ _ hsort 0 _ (by omega) (Nat.zero_le _)]
    have := List.countP_le_length (fun y => decide (y < val)) (l := lowersOf lowerfn cs)
    omega
  simp only [select]
  rw [if_neg hn, if_neg (by simp [hlow])]
  rw [hstop, hstart]
  -- abbreviate the two counts
  have hc2N : ((lowersOf lowerfn cs).countP fun y =>
      decide (y < nextPrefix (longestOf lowerfn cs) val)) ≤
      (rawsAllOf lowerfn cs).length := by omega
  -- left side: the mapped range is a contiguous slice of the pair-ordered raw texts
  have hLHS : (List.range'
        ((lowersOf lowerfn cs).countP fun y => decide (y < val))
        (((lowersOf lowerfn cs).countP fun y =>
          decide (y < nextPrefix (longestOf lowerfn cs) val)) -
          ((lowersOf lowerfn cs).countP fun y => decide (y < val)))).map
        (fun i => (rawsOf lowerfn cs).getD ((rindsOf lowerfn cs).getD i 0) []) =
      ((rawsAllOf lowerfn cs).drop
        ((lowersOf lowerfn cs).countP fun y => decide (y < val))).take
        (((lowersOf lowerfn cs).countP fun y =>
          decide (y < nextPrefix (longestOf lowerfn cs) val)) -
          ((lowersOf lowerfn cs).countP fun y => decide (y < val))) := by
    rw [List.map_congr_left (g := fun i => (rawsAllOf lowerfn cs).getD i [])]
    · exact range'_map_getD _ [] _ _ (by omega)
    · intro i hi
      rw [List.mem_range'_1] at hi
      have hiN : i < (rawsAllOf lowerfn cs).length := by omega
      obtain ⟨hj1, hj2⟩ := linds_rinds lowerfn cs i hiN
      rw [raws_getD_eq lowerfn cs _ hj1, hj2]
  rw [hLHS]
  -- right side
  have hspec : specSelect lowerfn cs val =
      ((prepTmp lowerfn cs).filter fun p => decide (val <+: p.1)).map Prod.snd := by
    unfold specSelect prepTmp
    congr 1
    apply List.filter_congr
    intro p _
    rw [if_pos hlow]
  have hfilter : (prepTmp lowerfn cs).filter (fun p => decide (val <+: p.1)) =
      (prepTmp lowerfn cs).filter
        (fun e => !(decide (e.1 < val)) &&
          decide (e.1 < nextPrefix (longestOf lowerfn cs) val)) := by
    apply List.filter_congr
    intro e he
    have he1 : e.1 ∈ lowersOf lowerfn cs := by
      unfold lowersOf
      exact List.mem_map_of_mem Prod.fst he
    obtain ⟨c, hc, hce⟩ := mem_lowers lowerfn cs e.1 he1
    have hval1 : ∀ ch ∈ e.1, ch ≤ maxunicode := by
      intro ch hch
      rw [hce] at hch
      obtain ⟨d, hd, hdc⟩ := List.mem_map.mp hch
      rw [← hdc]
      exact hlofn d (hcs c hc d hd)
    have hlen1 : e.1.length ≤ longestOf lowerfn cs := by
      rw [hce]
      unfold lower
      rw [List.length_map]
      exact cs_longest lowerfn cs c hc
    have hiff := np_interval (longestOf lowerfn cs) val e.1 hval hval1 hlen1
    rw [decide_interval_eq]
    rw [decide_eq_decide]
    exact hiff.symm
  have hcnt1 : ((lowersOf lowerfn cs).countP fun y => decide (y < val)) =
      (prepTmp lowerfn cs).countP fun e => decide (e.1 < val) := by
    show ((prepTmp lowerfn cs).map Prod.fst).countP _ = _
    rw [List.countP_map]
    rfl
  have hcnt2 : ((lowersOf lowerfn cs).countP fun y =>
        decide (y < nextPrefix (longestOf lowerfn cs) val)) =
      (prepTmp lowerfn cs).countP fun e =>
        decide (e.1 < nextPrefix (longestOf lowerfn cs) val) := by
    show ((prepTmp lowerfn cs).map Prod.fst).countP _ = _
    rw [List.countP_map]
    rfl
  have hdrop := sorted_filter_eq_drop_take (@Prod.fst Str Str)
    (fun y => decide (y < val))
    (fun y => decide (y < nextPrefix (longestOf lowerfn cs) val))
    (fun y hy => by
      rw [decide_eq_true_eq] at hy ⊢
      exact lt_of_lt_of_le hy hbound)
    (fun y z hyz hz => by
      rw [decide_eq_true_eq] at hz ⊢
      exact lt_of_le_of_lt hyz hz)
    (fun y z hyz hz => by
      rw [decide_eq_true_eq] at hz ⊢
      exact lt_of_le_of_lt hyz hz)
    (prepTmp lowerfn cs) hsort
  rw [hspec, hfilter, hdrop, ← hcnt1, ← hcnt2]
  rw [List.map_take, List.map_drop]
  rfl

end TkUtil.ItemSelector

namespace TkUtil.ItemSelector

theorem select_sensitive (lowerfn : Nat → Nat) (cs : List Str) (val : Str)
    (hlofn : ∀ c, c ≤ maxunicode → lowerfn c ≤ maxunicode)
    (hcs : ∀ s ∈ cs, ∀ c ∈ s, c ≤ maxunicode)
    (hval : ∀ c ∈ val, c ≤ maxunicode)
    (hlow : lower lowerfn val ≠ val)
    (hn : (rawsOf lowerfn cs).length ≠ 0) :
    select lowerfn cs val false = specSelect lowerfn cs val := by
  have hbound := le_nextPrefix (longestOf lowerfn cs) val
  have hsort := raws_sorted lowerfn cs
  have hrawslen : (rawsOf lowerfn cs).length = (rawsAllOf lowerfn cs).length :=
    raws_length lowerfn cs
  have hc12 : ((rawsOf lowerfn cs).countP fun y => decide (y < val)) ≤
      ((rawsOf lowerfn cs).countP fun y =>
        decide (y < nextPrefix (longestOf lowerfn cs) val)) := by
    apply List.countP_mono_left
    intro x _ hx
    rw [decide_eq_true_eq] at hx ⊢
    exact lt_of_lt_of_le hx hbound
  have hc2len := List.countP_le_length
    (fun y => decide (y < nextPrefix (longestOf lowerfn cs) val))
    (l := rawsOf lowerfn cs)
  have hc2N : ((rawsOf lowerfn cs).countP fun y =>
      decide (y < nextPrefix (longestOf lowerfn cs) val)) ≤
      (rawsAllOf lowerfn cs).length := by omega
  have hstop : bisectLeft (rawsOf lowerfn cs) (nextPrefix (longestOf lowerfn cs) val) 0
      (rawsOf lowerfn cs).length =
      ((rawsOf lowerfn cs).countP fun y =>
        decide (y < nextPrefix (longestOf lowerfn cs) val)) := by
    rw [bisectLeft_eq _ _ hsort 0 _ (le_refl _) (Nat.zero_le _)]
    omega
  have hstart : bisectLeft (rawsOf lowerfn cs) val 0
      ((rawsOf lowerfn cs).countP fun y =>
        decide (y < nextPrefix (longestOf lowerfn cs) val)) =
      ((rawsOf lowerfn cs).countP fun y => decide (y < val)) := by
    rw [bisectLeft_eq _ _ hsort 0 _ (by omega) (Nat.zero_le _)]
    have := List.countP_le_length (fun y => decide (y < val)) (l := rawsOf lowerfn cs)
    omega
  have hidx1 : ∀ i, i < (rawsAllOf lowerfn cs).length →
      ((rawsOf lowerfn cs).getD i [] < val ↔
        i < ((rawsOf lowerfn cs).countP fun y => decide (y < val))) := by
    intro i hiN
    have := sorted_getD_countP (fun y => decide (y < val))
      (fun y z hyz hz => by
        rw [decide_eq_true_eq] at hz ⊢
        exact lt_of_le_of_lt hyz hz) (rawsOf lowerfn cs) hsort i [] (by omega)
    simpa using this
  have hidx2 : ∀ i, i < (rawsAllOf lowerfn cs).length →
      ((rawsOf lowerfn cs).getD i [] < nextPrefix (longestOf lowerfn cs) val ↔
        i < ((rawsOf lowerfn cs).countP fun y =>
          decide (y < nextPrefix (longestOf lowerfn cs) val))) := by
    intro i hiN
    have := sorted_getD_countP
      (fun y => decide (y < nextPrefix (longestOf lowerfn cs) val))
      (fun y z hyz hz => by
        rw [decide_eq_true_eq] at hz ⊢
        exact lt_of_le_of_lt hyz hz) (rawsOf lowerfn cs) hsort i [] (by omega)
    simpa using this
  have hvalid_raws : ∀ i, i < (rawsAllOf lowerfn cs).length →
      (∀ ch ∈ (rawsOf lowerfn cs).getD i [], ch ≤ maxunicode) ∧
        ((rawsOf lowerfn cs).getD i []).length ≤ longestOf lowerfn cs := by
    intro i hiN
    have hmem : (rawsOf lowerfn cs).getD i [] ∈ rawsOf lowerfn cs := by
      rw [List.getD_eq_getElem _ [] (by omega)]
      exact List.getElem_mem _
    have hcsmem := (raws_perm_cs lowerfn cs).mem_iff.mp hmem
    exact ⟨fun ch hch => hcs _ hcsmem ch hch, raws_longest lowerfn cs _ hmem⟩
  have hinterval : ∀ i, i < (rawsAllOf lowerfn cs).length →
      ((val ≤ (rawsOf lowerfn cs).getD i [] ∧
        (rawsOf lowerfn cs).getD i [] < nextPrefix (longestOf lowerfn cs) val) ↔
        val <+: (rawsOf lowerfn cs).getD i []) := by
    intro i hiN
    obtain ⟨hv, hl⟩ := hvalid_raws i hiN
    exact np_interval _ val _ hval hv hl
  -- unfold select
  simp only [select]
  rw [if_neg hn, if_pos (Or.inr hlow)]
  rw [if_neg (by simp : ¬ (false = true))]
  rw [hstop, hstart]
  -- the pair list and its nodup facts
  have hpairs_nodup : ((List.range'
        ((rawsOf lowerfn cs).countP fun y => decide (y < val))
        (((rawsOf lowerfn cs).countP fun y =>
          decide (y < nextPrefix (longestOf lowerfn cs) val)) -
          ((rawsOf lowerfn cs).countP fun y => decide (y < val)))).map
        fun i => ((lindsOf lowerfn cs).getD i 0, i)).Nodup := by
    apply List.Nodup.map
    · intro a b hab
      exact congrArg Prod.snd hab
    · exact List.nodup_range' _ _
  have hmem_pairs : ∀ p, p ∈ pySorted ((List.range'
        ((rawsOf lowerfn cs).countP fun y => decide (y < val))
        (((rawsOf lowerfn cs).countP fun y =>
          decide (y < nextPrefix (longestOf lowerfn cs) val)) -
          ((rawsOf lowerfn cs).countP fun y => decide (y < val)))).map
        fun i => ((lindsOf lowerfn cs).getD i 0, i)) →
      ∃ i, ((rawsOf lowerfn cs).countP fun y => decide (y < val)) ≤ i ∧
        i < ((rawsOf lowerfn cs).countP fun y =>
          decide (y < nextPrefix (longestOf lowerfn cs) val)) ∧
        p = ((lindsOf lowerfn cs).getD i 0, i) := by
    intro p hp
    have hp2 := (pySorted_perm _).mem_iff.mp hp
    obtain ⟨i, hi, hip⟩ := List.mem_map.mp hp2
    rw [List.mem_range'_1] at hi
    exact ⟨i, hi.1, by omega, hip.symm⟩
  have hinds_fst_nodup : ((pySorted ((List.range'
        ((rawsOf lowerfn cs).countP fun y => decide (y < val))
        (((rawsOf lowerfn cs).countP fun y =>
          decide (y < nextPrefix (longestOf lowerfn cs) val)) -
          ((rawsOf lowerfn cs).countP fun y => decide (y < val)))).map
        fun i => ((lindsOf lowerfn cs).getD i 0, i))).map Prod.fst).Nodup := by
    apply List.Nodup.map_on
    · intro p hp q hq hfst
      obtain ⟨i, hi1, hi2, rfl⟩ := hmem_pairs p hp
      obtain ⟨j, hj1, hj2, rfl⟩ := hmem_pairs q hq
      have : i = j := linds_getD_inj lowerfn cs i j (by omega) (by omega) hfst
      rw [this]
    · exact ((pySorted_perm _).symm.nodup hpairs_nodup)
  -- the canonical index list
  have hfst_eq : ((pySorted ((List.range'
        ((rawsOf lowerfn cs).countP fun y => decide (y < val))
        (((rawsOf lowerfn cs).countP fun y =>
          decide (y < nextPrefix (longestOf lowerfn cs) val)) -
          ((rawsOf lowerfn cs).countP fun y => decide (y < val)))).map
        fun i => ((lindsOf lowerfn cs).getD i 0, i))).map Prod.fst) =
      ((rawsAllOf lowerfn cs).enum.filter
        fun q => decide (val <+: q.2)).map Prod.fst := by
    apply List.eq_of_perm_of_sorted (r := (· ≤ ·))
    · apply (List.perm_ext_iff_of_nodup hinds_fst_nodup
        (enum_filter_fst_nodup (fun r => decide (val <+: r)) (rawsAllOf lowerfn cs))).mpr
      intro j
      rw [mem_enum_filter_fst (fun r => decide (val <+: r)) (rawsAllOf lowerfn cs) [] j]
      constructor
      · intro hj
        obtain ⟨p, hp, hpj⟩ := List.mem_map.mp hj
        obtain ⟨i, hi1, hi2, rfl⟩ := hmem_pairs p hp
        have hiN : i < (rawsAllOf lowerfn cs).length := by omega
        subst hpj
        refine ⟨linds_getD_lt lowerfn cs i hiN, ?_⟩
        rw [← raws_getD_eq lowerfn cs i hiN]
        rw [decide_eq_true_eq]
        apply (hinterval i hiN).mp
        constructor
        · apply le_of_not_lt
          intro hc
          have := (hidx1 i hiN).mp hc
          omega
        · exact (hidx2 i hiN).mpr hi2
      · rintro ⟨hjN, hpred⟩
        obtain ⟨hrj, hlj⟩ := linds_rinds lowerfn cs j hjN
        have hri : (rawsOf lowerfn cs).getD ((rindsOf lowerfn cs).getD j 0) [] =
            (rawsAllOf lowerfn cs).getD j [] := by
          rw [raws_getD_eq lowerfn cs _ hrj, hlj]
        have hprefix : val <+: (rawsOf lowerfn cs).getD ((rindsOf lowerfn cs).getD j 0) [] := by
          rw [hri]
          exact of_decide_eq_true hpred
        have hint := (hinterval _ hrj).mpr hprefix
        apply List.mem_map.mpr
        refine ⟨((lindsOf lowerfn cs).getD ((rindsOf lowerfn cs).getD j 0) 0,
          (rindsOf lowerfn cs).getD j 0), ?_, by rw [hlj]⟩
        apply ((pySorted_perm _).mem_iff).mpr
        apply List.mem_map.mpr
        refine ⟨(rindsOf lowerfn cs).getD j 0, ?_, rfl⟩
        rw [List.mem_range'_1]
        have hge : ((rawsOf lowerfn cs).countP fun y => decide (y < val)) ≤
            (rindsOf lowerfn cs).getD j 0 := by
          apply le_of_not_lt
          intro hc
          have := (hidx1 _ hrj).mpr hc
          exact absurd hint.1 (not_le_of_lt this)
        have hlt := (hidx2 _ hrj).mp hint.2
        exact ⟨hge, by omega⟩
    · exact pySorted_fst_sorted _
    · exact enum_filter_fst_sorted (fun r => decide (val <+: r)) (rawsAllOf lowerfn cs)
  -- rewrite the left side through the index list
  have hLHS : ((pySorted ((List.range'
        ((rawsOf lowerfn cs).countP fun y => decide (y < val))
        (((rawsOf lowerfn cs).countP fun y =>
          decide (y < nextPrefix (longestOf lowerfn cs) val)) -
          ((rawsOf lowerfn cs).countP fun y => decide (y < val)))).map
        fun i => ((lindsOf lowerfn cs).getD i 0, i))).map
        fun p => (rawsOf lowerfn cs).getD p.2 []) =
      (((pySorted ((List.range'
        ((rawsOf lowerfn cs).countP fun y => decide (y < val))
        (((rawsOf lowerfn cs).countP fun y =>
          decide (y < nextPrefix (longestOf lowerfn cs) val)) -
          ((rawsOf lowerfn cs).countP fun y => decide (y < val)))).map
        fun i => ((lindsOf lowerfn cs).getD i 0, i))).map Prod.fst).map
        fun j => (rawsAllOf lowerfn cs).getD j []) := by
    rw [List.map_map]
    apply List.map_congr_left
    intro p hp
    obtain ⟨i, hi1, hi2, rfl⟩ := hmem_pairs p hp
    have hiN : i < (rawsAllOf lowerfn cs).length := by omega
    show (rawsOf lowerfn cs).getD i [] =
      (rawsAllOf lowerfn cs).getD ((lindsOf lowerfn cs).getD i 0) []
    exact raws_getD_eq lowerfn cs i hiN
  rw [hLHS, hfst_eq]
  -- right side
  have hspec : specSelect lowerfn cs val =
      ((prepTmp lowerfn cs).filter fun p => decide (val <+: p.2)).map Prod.snd := by
    unfold specSelect prepTmp
    congr 1
    apply List.filter_congr
    intro p _
    rw [if_neg hlow]
  rw [hspec]
  have hfm : ((prepTmp lowerfn cs).filter fun p => decide (val <+: p.2)).map Prod.snd =
      (rawsAllOf lowerfn cs).filter fun r => decide (val <+: r) := by
    unfold rawsAllOf
    rw [List.filter_map]
    rfl
  rw [hfm, filter_eq_enum_filter (fun r => decide (val <+: r)) (rawsAllOf lowerfn cs)]
  rw [List.map_map]
  apply List.map_congr_left
  intro q hq
  have hq2 := (List.mem_filter.mp hq).1
  obtain ⟨hlt, hvq⟩ := List.mem_enum hq2
  show (rawsAllOf lowerfn cs).getD q.1 [] = q.2
  rw [List.getD_eq_getElem _ [] hlt]
  exact hvq.symm

end TkUtil.ItemSelector

namespace TkUtil.ItemSelector

/-- Claim C1: for distinct choices, `select(val, exact=False)` returns
exactly the choices having `val` as a prefix — compared against the
lowercased choice text when `val == val.lower()`, against the raw text
otherwise — in ascending order of the pair `(choice.lower(), choice)`. -/
theorem C1_select_prefix_search (lowerfn : Nat → Nat) (cs : List Str) (val : Str)
    (hnd : cs.Nodup)
    (hlofn : ∀ c, c ≤ maxunicode → lowerfn c ≤ maxunicode)
    (hcs : ∀ s ∈ cs, ∀ c ∈ s, c ≤ maxunicode)
    (hval : ∀ c ∈ val, c ≤ maxunicode) :
    select lowerfn cs val false = specSelect lowerfn cs val := by
  by_cases hn : (rawsOf lowerfn cs).length = 0
  · have hcs0 : cs = [] := by
      have h1 := (raws_perm_cs lowerfn cs).length_eq
      rw [hn] at h1
      exact List.length_eq_zero.mp h1.symm
    subst hcs0
    rfl
  · by_cases hlow : lower lowerfn val = val
    · exact select_insensitive lowerfn cs val hlofn hcs hval hlow hn
    · exact select_sensitive lowerfn cs val hlofn hcs hval hlow hn

/-- Witness for C1: choices `hi`, `Ha`, query `h` (case-insensitive). -/
theorem C1_select_prefix_search_witness :
    ([[104, 105], [72, 97]] : List Str).Nodup ∧
    (∀ c, c ≤ maxunicode → asciiLower c ≤ maxunicode) ∧
    (∀ s ∈ ([[104, 105], [72, 97]] : List Str), ∀ c ∈ s, c ≤ maxunicode) ∧
    (∀ c ∈ ([104] : Str), c ≤ maxunicode) ∧
    select asciiLower [[104, 105], [72, 97]] [104] false =
      specSelect asciiLower [[104, 105], [72, 97]] [104] := by
  have hlofn : ∀ c, c ≤ maxunicode → asciiLower c ≤ maxunicode := by
    intro c hc
    simp only [asciiLower, maxunicode] at *
    split_ifs with h <;> omega
  exact ⟨by decide, hlofn, by decide, by decide,
    C1_select_prefix_search asciiLower [[104, 105], [72, 97]] [104]
      (by decide) hlofn (by decide) (by decide)⟩

theorem decide_point_eq (val x : Str) :
    (!decide (x < val) && decide (x ≤ val)) = decide (x = val) := by
  by_cases h1 : x < val
  · simp [h1, ne_of_lt h1]
  · by_cases h2 : x ≤ val
    · have hx : x = val := le_antisymm h2 (le_of_not_lt h1)
      simp [h1, h2, hx]
    · have hne : ¬ x = val := fun hc => h2 (le_of_eq hc)
      simp [h1, h2, hne]

/-- Claim C9: `select(val, exact=True)` returns `[val]` exactly when
`val` is one of the configured choices, case-sensitively, and `[]`
otherwise. -/
theorem C9_select_exact (lowerfn : Nat → Nat) (cs : List Str) (val : Str)
    (hnd : cs.Nodup) :
    select lowerfn cs val true = if val ∈ cs then [val] else [] := by
  by_cases hn : (rawsOf lowerfn cs).length = 0
  · have hcs0 : cs = [] := by
      have h1 := (raws_perm_cs lowerfn cs).length_eq
      rw [hn] at h1
      exact List.length_eq_zero.mp h1.symm
    subst hcs0
    rfl
  · have hsort := raws_sorted lowerfn cs
    have hrawsnd : (rawsOf lowerfn cs).Nodup := (raws_perm_cs lowerfn cs).symm.nodup hnd
    have hc12 : ((rawsOf lowerfn cs).countP fun y => decide (y < val)) ≤
        ((rawsOf lowerfn cs).countP fun y => decide (y ≤ val)) := by
      apply List.countP_mono_left
      intro x _ hx
      rw [decide_eq_true_eq] at hx ⊢
      exact le_of_lt hx
    have hc2len := List.countP_le_length (fun y => decide (y ≤ val))
      (l := rawsOf lowerfn cs)
    have hstop : bisectRight (rawsOf lowerfn cs) val 0 (rawsOf lowerfn cs).length =
        ((rawsOf lowerfn cs).countP fun y => decide (y ≤ val)) := by
      rw [bisectRight_eq _ _ hsort 0 _ (le_refl _) (Nat.zero_le _)]
      omega
    have hstart : bisectLeft (rawsOf lowerfn cs) val 0
        ((rawsOf lowerfn cs).countP fun y => decide (y ≤ val)) =
        ((rawsOf lowerfn cs).countP fun y => decide (y < val)) := by
      rw [bisectLeft_eq _ _ hsort 0 _ (by omega) (Nat.zero_le _)]
      have := List.countP_le_length (fun y => decide (y < val)) (l := rawsOf lowerfn cs)
      omega
    have hsmap : ((rawsOf lowerfn cs).map (fun r => r)).Sorted (· ≤ ·) := by
      simpa using hsort
    have hdrop := sorted_filter_eq_drop_take (fun r : Str => r)
      (fun y => decide (y < val)) (fun y => decide (y ≤ val))
      (fun y hy => by
        rw [decide_eq_true_eq] at hy ⊢
        exact le_of_lt hy)
      (fun y z hyz hz => by
        rw [decide_eq_true_eq] at hz ⊢
        exact lt_of_le_of_lt hyz hz)
      (fun y z hyz hz => by
        rw [decide_eq_true_eq] at hz ⊢
        exact le_trans hyz hz)
      (rawsOf lowerfn cs) hsmap
    have hpoint : (rawsOf lowerfn cs).filter
        (fun e => !decide (e < val) && decide (e ≤ val)) =
        (rawsOf lowerfn cs).filter (fun x => decide (x = val)) := by
      apply List.filter_congr
      intro x _
      exact decide_point_eq val x
    have hsingle := filter_eq_singleton_of_nodup val (rawsOf lowerfn cs) hrawsnd
    have hslice : ((rawsOf lowerfn cs).drop
        ((rawsOf lowerfn cs).countP fun y => decide (y < val))).take
        (((rawsOf lowerfn cs).countP fun y => decide (y ≤ val)) -
          ((rawsOf lowerfn cs).countP fun y => decide (y < val))) =
        (if val ∈ rawsOf lowerfn cs then [val] else []) := by
      rw [← hdrop, hpoint, hsingle]
      by_cases hm : val ∈ rawsOf lowerfn cs
      · simp only [if_pos hm]
      · simp only [if_neg hm]
    have hlens := congrArg List.length hslice
    rw [List.length_take, List.length_drop] at hlens
    simp only [select]
    rw [if_neg hn,
      if_pos (show True ∨ lower lowerfn val ≠ val from Or.inl trivial),
      if_pos trivial]
    rw [hstop, hstart]
    by_cases hin : val ∈ rawsOf lowerfn cs
    · have hone : (((rawsOf lowerfn cs).countP fun y => decide (y ≤ val)) -
          ((rawsOf lowerfn cs).countP fun y => decide (y < val))) = 1 := by
        rw [if_pos hin] at hlens
        simp only [List.length_cons, List.length_nil] at hlens
        omega
      rw [hone, if_pos hin] at hslice
      have hc1len : ((rawsOf lowerfn cs).countP fun y => decide (y < val)) <
          (rawsOf lowerfn cs).length := by omega
      rw [List.drop_eq_getElem_cons hc1len] at hslice
      rw [List.take_succ_cons, List.take_zero] at hslice
      have hval : (rawsOf lowerfn cs)[((rawsOf lowerfn cs).countP
          fun y => decide (y < val))] = val := (List.cons.injEq _ _ _ _ ▸ hslice).1
      rw [hone]
      rw [List.range'_one]
      rw [if_pos ((raws_perm_cs lowerfn cs).mem_iff.mp hin)]
      show [(rawsOf lowerfn cs).getD ((rawsOf lowerfn cs).countP
        fun y => decide (y < val)) []] = [val]
      rw [List.getD_eq_getElem _ [] hc1len, hval]
    · have hzero : (((rawsOf lowerfn cs).countP fun y => decide (y ≤ val)) -
          ((rawsOf lowerfn cs).countP fun y => decide (y < val))) = 0 := by
        rw [if_neg hin] at hlens
        simp only [List.length_nil] at hlens
        omega
      rw [hzero]
      rw [if_neg (fun hc => hin ((raws_perm_cs lowerfn cs).mem_iff.mpr hc))]
      rfl

/-- Witness for C9: exact lookup of `hi` (present) among `hi`, `Ha`. -/
theorem C9_select_exact_witness :
    ([[104, 105], [72, 97]] : List Str).Nodup ∧
    select asciiLower [[104, 105], [72, 97]] [104, 105] true =
      (if ([104, 105] : Str) ∈ ([[104, 105], [72, 97]] : List Str)
        then [[104, 105]] else []) :=
  ⟨by decide, C9_select_exact asciiLower [[104, 105], [72, 97]] [104, 105] (by decide)⟩

end TkUtil.ItemSelector
